import Mathlib

/-!
# Shallow embedding of `tvd::lee_neumann`, `tvd::LU` (src/math.hpp) and of `tvd::insert_if`,
`tvd::min`, `tvd::max` (src/algorithm.hpp)

Conventions of the embedding.

* `size_t` values are `Nat`, `int` values are `Int`.  The probes `int iy = y + dy[i]`,
  `int ix = x + dx[i]` are narrowed to 32 bits by `to_int`, so a probe from column
  `2^31 - 1` to the east is negative and a probe from column `2^32` aliases column `0`.  The
  conversions back (`map.size() > iy`, `v[0] == iy`, `{ iy, ix, d + 1 }`) apply to values that
  the guard has found non-negative and are exact.  The `int` that `wave_propagation` returns
  and `int y_end` hold `std::size(way) - 1`, taken to be exact: the visit record is assumed to
  stay below `2^31` rows.  The one place where unsigned wrap-around is visible on small values,
  `last_v[0] - 1` at `last_v[0] = 0`, is computed in `Int`, where it yields `-1`; like the
  wrapped value `2^64 - 1` it equals no coordinate.
* `matrix_view` is not part of the sources.  The embedding keeps what `lee_neumann` uses of it:
  `size()` (rows), `csize()` (columns) and the element access `map[y][x]`.  The access is a
  total function of the two indices: for an index pair inside the grid it is the grid cell, for
  an index pair outside it is whatever the unchecked access yields.  The theorems quantify
  over all such functions.  `matrix_view.row_major` builds the view over a row-major buffer,
  the layout that `min` and `max` of src/algorithm.hpp walk with stride `csize()`.
* The element type `_Ty` is any type with decidable equality (no floating point).
* `matrix_3xn_t<size_t>` is a list of rows, each row a triple.  `last_v` is a row value: the
  source may bind it to `way[y_end]` by reference, but then the assignment `last_v = way[i]`
  writes a row that the scan, which starts below it, does not read again.
* The two loops of the expansion whose termination is not structural carry a fuel argument;
  running out of fuel is `none`.  `lee_neumann_mono` shows that more fuel does not change a
  result, `expand_terminates` that some amount of fuel suffices on every input.
* `min` and `max` walk the storage of a matrix from `cbegin()` to `cend()`; the embedding
  keeps `csize()` and the elements in that order.  Their loops take the number of elements
  as fuel, which is never used up.
* `LU` is embedded over the rationals.  A matrix is the function of its entries, used with
  its size.  A division by zero has no value: it ends the run with `lu_result.zero_divide`.
-/

namespace tvd

/-! ## The program -/

/-- The part of `matrix_view<_Ty>` that `lee_neumann` uses. -/
structure matrix_view (T : Type) where
  /-- Number of rows, `map.size()`. -/
  size : Nat
  /-- Number of columns, `map.csize()`. -/
  csize : Nat
  /-- Element access `map[y][x]`, not bounds-checked. -/
  cell : Nat → Nat → T

/-- View over a row-major buffer `data`; `past` is what a read behind the buffer yields. -/
def matrix_view.row_major {T : Type} (size csize : Nat) (data : List T) (past : T) :
    matrix_view T :=
  { size := size, csize := csize, cell := fun y x => data.getD (y * csize + x) past }

/-- One row of a `matrix_3xn_t<size_t>`. -/
abbrev row_t := Nat × Nat × Nat

/-- The type `detail::matrix_3xn_t<size_t>`: rows in insertion order. -/
abbrev matrix_3xn_t := List row_t

/-- The loop of `insert_if`: `false` as soon as `c` fails on an element. -/
def insert_if_loop {α : Type} (c : α → Bool) : List α → Bool
  | [] => true
  | a :: rest => if !c a then false else insert_if_loop c rest

/-- Embedding of `insert_if(m, v, c)`: the returned flag and the matrix afterwards. -/
def insert_if {α : Type} (m : List α) (v : α) (c : α → Bool) : Bool × List α :=
  if insert_if_loop c m then (true, m ++ [v]) else (false, m)

/-- The array `dx` of `lee_neumann`. -/
def dx : List Int := [1, 0, -1, 0]

/-- The array `dy` of `lee_neumann`. -/
def dy : List Int := [0, 1, 0, -1]

/-- The value an `int` (32 bits, two's complement) takes from a `size_t` sum, as in
`int iy = y + dy[i]` (line 54): the sum is formed in `size_t`, where `dy[i] = -1` counts as
`2^64 - 1`, and is then narrowed, i.e. reduced modulo `2^32` into `-2^31 .. 2^31 - 1`.  As
`2^32` divides `2^64`, this is the reduction of the exact sum; `to_int_eq` gives it in one
formula. -/
def to_int : Int → Int
  | Int.ofNat n =>
    if n % 4294967296 < 2147483648 then Int.ofNat (n % 4294967296)
    else Int.negSucc (4294967295 - n % 4294967296)
  | Int.negSucc n =>
    if n % 4294967296 < 2147483648 then Int.negSucc (n % 4294967296)
    else Int.ofNat (4294967295 - n % 4294967296)

/-- Comparison `n > i` of a `size_t` with an `int`: the `int` is converted to `size_t`, so a
negative `i` is never below `n`. -/
def size_gt (n : Nat) (i : Int) : Bool := decide (0 ≤ i) && decide (i < (n : Int))

/-- The variables captured by reference and written by the lambdas of `lee_neumann`. -/
structure wave_state where
  way : matrix_3xn_t
  stop : Bool
  y_end : Nat
deriving DecidableEq

variable {T : Type} [DecidableEq T]

/-- The condition of the `if` in `wave_propagation` (lines 55-58), evaluated left to right. -/
def wave_guard (map : matrix_view T) (blank : T) (iy ix : Int) : Bool :=
  (size_gt map.size iy || size_gt map.csize ix) &&
    decide (iy ≥ 0) && decide (ix ≥ 0) && decide (map.cell iy.toNat ix.toNat = blank)

/-- The `for` loop of `wave_propagation(y, x, d)` from index `i` on, `k` iterations left.
Returns the visit record, the `stop` flag and the returned `int`. -/
def wave_loop (map : matrix_view T) (blank : T) (x_to y_to : Nat) (y x d : Nat) :
    Nat → Nat → matrix_3xn_t → Bool → matrix_3xn_t × Bool × Nat
  | 0, _, way, stop => (way, stop, 0)
  | k + 1, i, way, stop =>
    let iy : Int := to_int ((y : Int) + dy.getD i 0)
    let ix : Int := to_int ((x : Int) + dx.getD i 0)
    if wave_guard map blank iy ix then
      let r := insert_if way (iy.toNat, ix.toNat, d + 1)
        (fun v => !(decide ((v.1 : Int) = iy) && decide ((v.2.1 : Int) = ix)))
      if r.1 then
        if decide (iy = (y_to : Int)) && decide (ix = (x_to : Int)) then
          (r.2, stop, r.2.length - 1)
        else wave_loop map blank x_to y_to y x d k (i + 1) r.2 false
      else wave_loop map blank x_to y_to y x d k (i + 1) r.2 stop
    else wave_loop map blank x_to y_to y x d k (i + 1) way stop

/-- The lambda `wave_propagation`: four probes, `i = 0 .. 3`. -/
def wave_propagation (map : matrix_view T) (blank : T) (x_to y_to : Nat) (y x d : Nat)
    (way : matrix_3xn_t) (stop : Bool) : matrix_3xn_t × Bool × Nat :=
  wave_loop map blank x_to y_to y x d 4 0 way stop

/-- Body of the inner `for` loop (lines 82-84) at index `i`. -/
def round_body (map : matrix_view T) (blank : T) (x_to y_to : Nat) (d i : Nat)
    (s : wave_state) : wave_state :=
  let v := s.way.getD i (0, 0, 0)
  if v.2.2 = d then
    let r := wave_propagation map blank x_to y_to v.1 v.2.1 d s.way s.stop
    { way := r.1, stop := r.2.1, y_end := r.2.2 }
  else s

/-- The inner loop `for( size_t i(0); i < std::size(way); i++ )` (lines 80-88) from index `i`
on; the bound is re-read in every iteration. -/
def round_loop (map : matrix_view T) (blank : T) (x_to y_to : Nat) (d : Nat) :
    Nat → Nat → wave_state → Option wave_state
  | 0, _, _ => none
  | fuel + 1, i, s =>
    if i < s.way.length then
      let s1 := round_body map blank x_to y_to d i s
      if s1.y_end ≠ 0 then some s1
      else round_loop map blank x_to y_to d fuel (i + 1) s1
    else some s

/-- The loop `do { ... } while( !stop )` (lines 78-90), entered with distance `d`; `inner` is
the fuel handed to every inner loop. -/
def expansion (map : matrix_view T) (blank : T) (x_to y_to : Nat) (inner : Nat) :
    Nat → Nat → wave_state → Option wave_state
  | 0, _, _ => none
  | fuel + 1, d, s =>
    match round_loop map blank x_to y_to d inner 0 { s with stop := true } with
    | none => none
    | some s1 => if !s1.stop then expansion map blank x_to y_to inner fuel (d + 1) s1
                 else some s1

/-- The lambda `neighbour(curr_v, last_v)` (lines 94-100); `&&` binds tighter than `||`. -/
def neighbour (curr_v last_v : row_t) : Bool :=
  ((decide ((last_v.1 : Int) - 1 = curr_v.1) || decide ((last_v.1 : Int) + 1 = curr_v.1)) &&
      decide (last_v.2.1 = curr_v.2.1)) ||
  ((decide ((last_v.2.1 : Int) - 1 = curr_v.2.1) || decide ((last_v.2.1 : Int) + 1 = curr_v.2.1)) &&
      decide (last_v.1 = curr_v.1))

/-- The scan `for( size_t i(y_end); i != 0; i-- )` (lines 111-119): the first row, from index
`i` downwards and index 0 excluded, with distance `d` that is a neighbour of `last_v`. -/
def back_scan (way : matrix_3xn_t) (d : Nat) (last_v : row_t) : Nat → Option row_t
  | 0 => none
  | i + 1 =>
    let v := way.getD (i + 1) (0, 0, 0)
    if decide (v.2.2 = d) && neighbour v last_v then some v
    else back_scan way d last_v i

/-- The loop `while( d > 0 )` (lines 109-123); `none` is the `return TVD_NULLOPT` of line 121. -/
def back_trace (way : matrix_3xn_t) (y_end : Nat) : Nat → row_t → matrix_3xn_t →
    Option matrix_3xn_t
  | 0, _, min_w => some min_w
  | d + 1, last_v, min_w =>
    match back_scan way (d + 1) last_v y_end with
    | some v => back_trace way y_end d v (min_w ++ [(v.2.1, v.1, 1)])
    | none => none

/-- What a call of `lee_neumann` ends with. -/
inductive outcome where
  /-- The exception of line 34. -/
  | out_of_range
  /-- The empty optional `TVD_NULLOPT` (lines 37, 92 and 121). -/
  | nullopt
  /-- The matrix `min_w` of line 126. -/
  | path (min_w : matrix_3xn_t)
deriving DecidableEq

/-- Lines 42-90 of `lee_neumann`: the visit record seeded with the origin and expanded. -/
def expand (fuel : Nat) (map : matrix_view T) (x_from y_from x_to y_to : Nat) (blank : T) :
    Option wave_state :=
  expansion map blank x_to y_to fuel fuel 0
    { way := [(y_from, x_from, 0)], stop := false, y_end := 0 }

/-- Lines 102-126 of `lee_neumann`: the walk back from the hit `way[y_end]`. -/
def reconstruct (way : matrix_3xn_t) (y_end : Nat) (x_from y_from x_to y_to : Nat) : outcome :=
  let last_v := way.getD y_end (0, 0, 0)
  match back_trace way (y_end - 1) (last_v.2.2 - 1) last_v [(x_to, y_to, 1)] with
  | none => outcome.nullopt
  | some min_w => outcome.path (min_w ++ [(x_from, y_from, 1)])

/-- Embedding of `lee_neumann(map, x_from, y_from, x_to, y_to, blank)`; `none` when the fuel
does not suffice for the expansion. -/
def lee_neumann (fuel : Nat) (map : matrix_view T) (x_from y_from x_to y_to : Nat) (blank : T) :
    Option outcome :=
  if map.size ≤ y_from ∨ map.csize ≤ x_from ∨ map.size ≤ y_to ∨ map.csize ≤ x_to then
    some outcome.out_of_range
  else if map.cell y_from x_from ≠ blank ∨ map.cell y_to x_to ≠ blank then
    some outcome.nullopt
  else
    match expand fuel map x_from y_from x_to y_to blank with
    | none => none
    | some s =>
      if s.y_end = 0 then some outcome.nullopt
      else some (reconstruct s.way s.y_end x_from y_from x_to y_to)

/-! ## Specification vocabulary and invariants -/

/-- Two cells `(row, col)` are 4-adjacent: exactly one coordinate differs, by exactly 1. -/
def adjacent4 (a b : Nat × Nat) : Prop :=
  (a.1 = b.1 ∧ (a.2 + 1 = b.2 ∨ b.2 + 1 = a.2)) ∨
  (a.2 = b.2 ∧ (a.1 + 1 = b.1 ∨ b.1 + 1 = a.1))

instance (a b : Nat × Nat) : Decidable (adjacent4 a b) := by
  unfold adjacent4; infer_instance

/-- Two rows are 4-adjacent in their first two entries. -/
def step4 (a b : row_t) : Prop := adjacent4 (a.1, a.2.1) (b.1, b.2.1)

instance (a b : row_t) : Decidable (step4 a b) := by
  unfold step4; infer_instance

/-- The row `e` is what one of the four probes of `wave_propagation` produces from `p`. -/
def probed (p e : row_t) : Prop :=
  ∃ j, j < 4 ∧ (e.1 : Int) = to_int ((p.1 : Int) + dy.getD j 0) ∧
    (e.2.1 : Int) = to_int ((p.2.1 : Int) + dx.getD j 0)

/-- Visit records that arise from the seed row by appending, one at a time, a row that passed
the guard, was probed from a row already present, carries its distance plus one, and whose
coordinate was not present. -/
inductive built (map : matrix_view T) (blank : T) (seed : row_t) : matrix_3xn_t → Prop
  | seed : built map blank seed [seed]
  | snoc {w : matrix_3xn_t} {p e : row_t} : built map blank seed w → p ∈ w →
      e.2.2 = p.2.2 + 1 → probed p e → wave_guard map blank e.1 e.2.1 = true →
      (∀ v ∈ w, ¬ (v.1 = e.1 ∧ v.2.1 = e.2.1)) → built map blank seed (w ++ [e])

/-- Every probe `j` with `lo ≤ j < hi` of the cell `(y, x)` that passes the guard has its
coordinate in `way`, with a distance of at most `d + 1`. -/
def probes_in (map : matrix_view T) (blank : T) (way : matrix_3xn_t) (y x d lo hi : Nat) :
    Prop :=
  ∀ j, lo ≤ j → j < hi →
    wave_guard map blank (to_int ((y : Int) + dy.getD j 0))
      (to_int ((x : Int) + dx.getD j 0)) = true →
    ∃ e ∈ way, (e.1 : Int) = to_int ((y : Int) + dy.getD j 0) ∧
      (e.2.1 : Int) = to_int ((x : Int) + dx.getD j 0) ∧ e.2.2 ≤ d + 1

/-- What one run of the probe loop of `wave_propagation(y, x, d)` does, started at probe `i`
with `k` probes left on the record `way`: `r` is the result, `added` the rows appended. -/
structure wave_post (map : matrix_view T) (blank : T) (seed : row_t) (x_to y_to y x d : Nat)
    (k i : Nat) (way : matrix_3xn_t) (stop : Bool) (r : matrix_3xn_t × Bool × Nat)
    (added : matrix_3xn_t) : Prop where
  way_eq : r.1 = way ++ added
  len : added.length ≤ k
  label : ∀ e ∈ added, e.2.2 = d + 1
  keeps : (y, x, d) ∈ way → built map blank seed way → built map blank seed r.1
  miss : r.2.2 = 0 → way ≠ [] →
    (∀ e ∈ added, ¬ (e.1 = y_to ∧ e.2.1 = x_to)) ∧
    (added = [] ∧ r.2.1 = stop ∨ added ≠ [] ∧ r.2.1 = false) ∧
    ((∀ v ∈ way, v.2.2 ≤ d + 1) → probes_in map blank r.1 y x d i (i + k))
  hit : r.2.2 ≠ 0 → r.2.2 + 1 = r.1.length ∧
    ∃ l, added = l ++ [(y_to, x_to, d + 1)] ∧ ∀ e ∈ way ++ l, ¬ (e.1 = y_to ∧ e.2.1 = x_to)

/-- No row of `way` has a distance above `d`. -/
def max_dist (d : Nat) (way : matrix_3xn_t) : Prop := ∀ v ∈ way, v.2.2 ≤ d

/-- All four probes of the row `e` that pass the guard have their coordinate in `way`. -/
def expanded (map : matrix_view T) (blank : T) (way : matrix_3xn_t) (e : row_t) : Prop :=
  probes_in map blank way e.1 e.2.1 e.2.2 0 4

/-- Every row of `way` with a distance below `d` is expanded. -/
def closed (map : matrix_view T) (blank : T) (d : Nat) (way : matrix_3xn_t) : Prop :=
  ∀ e ∈ way, e.2.2 < d → expanded map blank way e

/-- No row of `l` has the coordinate of the destination. -/
def off_dest (x_to y_to : Nat) (l : matrix_3xn_t) : Prop :=
  ∀ e ∈ l, ¬ (e.1 = y_to ∧ e.2.1 = x_to)

/-- Invariant of the inner loop in round `d` before index `i`, no hit so far; `way0` is the
visit record at the start of the round. -/
structure round_inv (map : matrix_view T) (blank : T) (seed : row_t) (x_to y_to : Nat)
    (d i : Nat) (way0 : matrix_3xn_t) (s : wave_state) : Prop where
  y_end0 : s.y_end = 0
  bt : built map blank seed s.way
  mx : max_dist (d + 1) s.way
  cl : closed map blank d s.way
  ex : ∀ n e, n < i → s.way[n]? = some e → e.2.2 = d → expanded map blank s.way e
  nd : off_dest x_to y_to s.way.tail
  st : s.stop = true → s.way = way0
  ext : ∃ l, s.way = way0 ++ l

/-- The state in which the destination has just been appended, in round `d`. -/
structure hit_state (map : matrix_view T) (blank : T) (seed : row_t) (x_to y_to : Nat)
    (d : Nat) (s : wave_state) : Prop where
  y_end_pos : s.y_end ≠ 0
  bt : built map blank seed s.way
  shape : ∃ w, s.way = w ++ [(y_to, x_to, d + 1)] ∧ s.y_end = w.length ∧
    off_dest x_to y_to w ∧ closed map blank d w ∧ max_dist (d + 1) w ∧ w ≠ []

/-- Invariant of the outer loop on entry to round `d`, no hit so far. -/
structure run_inv (map : matrix_view T) (blank : T) (seed : row_t) (x_to y_to : Nat)
    (d : Nat) (s : wave_state) : Prop where
  y_end0 : s.y_end = 0
  bt : built map blank seed s.way
  mx : max_dist d s.way
  cl : closed map blank d s.way
  nd : off_dest x_to y_to s.way.tail

/-- The state in which the frontier has stalled: no hit, and every row is expanded. -/
structure stall_state (map : matrix_view T) (blank : T) (seed : row_t) (x_to y_to : Nat)
    (s : wave_state) : Prop where
  y_end0 : s.y_end = 0
  bt : built map blank seed s.way
  all : ∀ e ∈ s.way, expanded map blank s.way e
  nd : off_dest x_to y_to s.way.tail

/-! ## Concrete grids -/

/-- The 5 x 2 grid of the failing input of C2, row-major; `past` stands for what is read
behind the buffer. -/
def detour_grid (past : Nat) : matrix_view Nat :=
  matrix_view.row_major 5 2 [1, 0,  0, 1,  0, 0,  0, 1,  1, 1] past

/-- The 5 x 3 grid of the failing input of C10, row-major; `past` stands for what is read
behind the buffer. -/
def enclosed_grid (past : Nat) : matrix_view Nat :=
  matrix_view.row_major 5 3 [1, 1, 0,  0, 1, 1,  0, 1, 0,  0, 1, 1,  1, 1, 1] past

/-- The 5 x 5 grid of the scenario of C9, row-major, blank 0 and obstacle 1: obstacles at
column 2 of rows 0..3; a read behind the buffer yields 1. -/
def wall_grid : matrix_view Nat :=
  matrix_view.row_major 5 5
    [0, 0, 1, 0, 0,  0, 0, 1, 0, 0,  0, 0, 1, 0, 0,  0, 0, 1, 0, 0,  0, 0, 0, 0, 0] 1

/-- The path `lee_neumann` returns on `wall_grid` from (row 0, col 0) to (row 4, col 4). -/
def wall_path : matrix_3xn_t :=
  [(4, 4, 1), (3, 4, 1), (2, 4, 1), (1, 4, 1), (0, 4, 1), (0, 3, 1), (0, 2, 1), (0, 1, 1),
    (0, 0, 1)]

/-- A 2 x 3 grid all of whose cells are blank (0), row-major; a read behind the buffer
yields 1. -/
def open_grid : matrix_view Nat :=
  matrix_view.row_major 2 3 [0, 0, 0,  0, 0, 0] 1

/-! ## Shape of the visit record and of the walk back -/

/-- No two rows of `way` have the same `(row, col)`. -/
def distinct_cells (way : matrix_3xn_t) : Prop :=
  way.Pairwise (fun a b => ¬ (a.1 = b.1 ∧ a.2.1 = b.2.1))

/-- The matrix container of src/algorithm.hpp as `min` and `max` use it: `csize()` and the
elements in the order in which `cbegin()` .. `cend()` walk them, row after row. -/
structure matrix (T : Type) where
  csize : Nat
  data : List T

/-- The two exceptions of `min` and `max`. -/
inductive column_fault where
  /-- `<matrix> is empty`. -/
  | empty
  /-- `<matrix.csize> <= <j_pos>`. -/
  | column
deriving DecidableEq

/-- The loop `for(auto & fst(first); fst < last; fst += size)` of `max`: `pos` is the offset of
`fst` from `cbegin()` and `acc` the variable `max`. -/
def max_loop {T : Type} [LinearOrder T] (data : List T) (size : Nat) : Nat → Nat → T → T
  | 0, _, acc => acc
  | fuel + 1, pos, acc =>
    match data[pos]? with
    | none => acc
    | some v => max_loop data size fuel (pos + size) (if acc < v then v else acc)

/-- The loop of `min`, likewise. -/
def min_loop {T : Type} [LinearOrder T] (data : List T) (size : Nat) : Nat → Nat → T → T
  | 0, _, acc => acc
  | fuel + 1, pos, acc =>
    match data[pos]? with
    | none => acc
    | some v => min_loop data size fuel (pos + size) (if acc > v then v else acc)

/-- Embedding of `tvd::max(m, j_pos)` (the name `max` is taken): `max` is read from `*first`
before `first += j_pos`.  The loop runs at most once per element, as `size > j_pos >= 0`, so
the fuel `data.length` is never used up (`max_loop_fuel`). -/
def column_max {T : Type} [LinearOrder T] (m : matrix T) (j_pos : Nat) : Except column_fault T :=
  match m.data with
  | [] => Except.error column_fault.empty
  | a :: _ =>
    if m.csize ≤ j_pos then Except.error column_fault.column
    else Except.ok (max_loop m.data m.csize m.data.length j_pos a)

/-- Embedding of `tvd::min(m, j_pos)` (the name `min` is taken): `min` is read from `*first`
after `first += j_pos`; in a matrix with at least one full row that offset is inside the
storage. -/
def column_min {T : Type} [LinearOrder T] (m : matrix T) (j_pos : Nat) : Except column_fault T :=
  match m.data with
  | [] => Except.error column_fault.empty
  | a :: _ =>
    if m.csize ≤ j_pos then Except.error column_fault.column
    else Except.ok (min_loop m.data m.csize m.data.length j_pos (m.data.getD j_pos a))

/-- The elements of column `j_pos`: those at the offsets `j_pos`, `j_pos + csize`, ... -/
def column {T : Type} (m : matrix T) (j_pos : Nat) : List T :=
  (List.range m.data.length).filterMap
    (fun p => if p % m.csize = j_pos then m.data[p]? else none)

/-- The 2 x 2 matrix with rows `5 1` and `2 3`. -/
def skew_matrix : matrix Nat := { csize := 2, data := [5, 1, 2, 3] }

/-! ## The program: `LU` -/

/-- The entries of a matrix over the rationals, by row and column; a matrix is used with its
`size`, entries beyond it are not read. -/
abbrev qmatrix := Nat → Nat → ℚ

/-- The assignment `M[r][c] = v`. -/
def set_entry (M : qmatrix) (r c : Nat) (v : ℚ) : qmatrix :=
  fun i j => if i = r ∧ j = c then v else M i j

/-- Modelled from the spec: the constructor `_MatrixTy L( size )`, which is not part of the
sources, gives the `size` x `size` zero matrix. -/
def zero_matrix : qmatrix := fun _ _ => 0

/-- The loop `for( j = i; j < size; j++ ) L[j][i] = U[j][i]/U[i][i]` with `n` iterations left;
`none` when the divisor `U[i][i]` is zero, for which the rationals have no quotient. -/
def l_column (U : qmatrix) (i : Nat) : Nat → Nat → qmatrix → Option qmatrix
  | 0, _, L => some L
  | n + 1, j, L =>
    if U i i = 0 then none
    else l_column U i n (j + 1) (set_entry L j i (U j i / U i i))

/-- The loop `for( i = ...; i < size; i++ )` around `l_column` (lines 141-143 and 147-149),
from column `i` on with `n` columns left. -/
def l_pass (U : qmatrix) (size : Nat) : Nat → Nat → qmatrix → Option qmatrix
  | 0, _, L => some L
  | n + 1, i, L =>
    match l_column U i (size - i) i L with
    | none => none
    | some L1 => l_pass U size n (i + 1) L1

/-- The loop `for( j = k - 1; j < size; j++ ) U[i][j] = U[i][j] - L[i][k - 1]*U[k - 1][j]`
with `n` iterations left. -/
def u_row (L : qmatrix) (k i : Nat) : Nat → Nat → qmatrix → qmatrix
  | 0, _, U => U
  | n + 1, j, U => u_row L k i n (j + 1) (set_entry U i j (U i j - L i (k - 1) * U (k - 1) j))

/-- The loop `for( i = k; i < size; i++ )` around `u_row` (lines 150-152), from row `i` on
with `n` rows left. -/
def u_pass (L : qmatrix) (k size : Nat) : Nat → Nat → qmatrix → qmatrix
  | 0, _, U => U
  | n + 1, i, U => u_pass L k size n (i + 1) (u_row L k i (size - (k - 1)) (k - 1) U)

/-- The loop `for( k = 1; k < size; k++ )` (lines 145-153) from `k` on with `n` rounds
left. -/
def lu_loop (size : Nat) : Nat → Nat → qmatrix × qmatrix → Option (qmatrix × qmatrix)
  | 0, _, s => some s
  | n + 1, k, s =>
    match l_pass s.2 size (size - (k - 1)) (k - 1) s.1 with
    | none => none
    | some L1 => lu_loop size n (k + 1) (L1, u_pass L1 k size (size - k) k s.2)

/-- What a call of `LU` ends with. -/
inductive lu_result where
  /-- The exception of line 135. -/
  | not_square
  /-- A division by zero. -/
  | zero_divide
  /-- The pair `{ L, U }` of line 154. -/
  | ok (L U : qmatrix)

/-- Embedding of `LU(A)` over the rationals; `rows` is `std::size(A)` and `size` is
`A.csize()`. -/
def LU (rows size : Nat) (A : qmatrix) : lu_result :=
  if size ≠ rows then lu_result.not_square
  else
    match l_pass A size size 0 zero_matrix with
    | none => lu_result.zero_divide
    | some L0 =>
      match lu_loop size (size - 1) 1 (L0, A) with
      | none => lu_result.zero_divide
      | some s => lu_result.ok s.1 s.2

/-- The 2 x 2 matrix with rows `1 1` and `1 0`. -/
def hollow_matrix : qmatrix := fun r c => if r = 1 ∧ c = 1 then 0 else 1

/-- The 2 x 2 matrix with rows `2 1` and `4 5`. -/
def plain_matrix : qmatrix := fun r c =>
  if r = 0 ∧ c = 0 then 2 else if r = 0 ∧ c = 1 then 1 else if r = 1 ∧ c = 0 then 4 else 5

/-! ## Vocabulary for `LU` -/

/-- What holds of `L` and `U` when `e` columns have been eliminated. -/
structure lu_inv (n : Nat) (A : qmatrix) (e : Nat) (L U : qmatrix) : Prop where
  sum : ∀ r c, r < n → c < n →
    A r c = (∑ m in Finset.range e, if m < r then L r m * U m c else 0) + U r c
  below : ∀ r c, r < n → c < e → c < r → U r c = 0
  diag : ∀ c, c < n → L c c = 1
  above : ∀ r c, r < c → L r c = 0

/-- Gaussian elimination without pivoting, as mathematics states it: the matrix after the
first `e` columns have been eliminated. Row `r > e` loses `E[r][e]/E[e][e]` times row `e`,
from column `e` on. -/
def eliminated (A : qmatrix) : Nat → qmatrix
  | 0 => A
  | e + 1 => fun r c =>
    if e < r ∧ e ≤ c then
      eliminated A e r c - eliminated A e r e / eliminated A e e e * eliminated A e e c
    else eliminated A e r c

/-- The leading principal minor of order `k`: the determinant of the first `k` rows and
columns. -/
def leading_minor (A : qmatrix) (k : Nat) : ℚ :=
  Matrix.det (Matrix.of fun (i j : Fin k) => A i j)

/-- The unit lower triangular factor of `hollow_matrix`: rows `1 0` and `1 1`. -/
def hollow_lower : qmatrix := fun r c => if c ≤ r then 1 else 0

/-- The upper triangular factor of `hollow_matrix`: rows `1 1` and `0 -1`. -/
def hollow_upper : qmatrix := fun r c => if r = 0 then 1 else if r = 1 ∧ c = 1 then -1 else 0

/-! ## The guard as written, and further grids -/

/-- The three bounds tests of the condition of lines 55-57, which decide whether the cell is
looked up. -/
def bounds_guard (map : matrix_view T) (iy ix : Int) : Bool :=
  (size_gt map.size iy || size_gt map.csize ix) && decide (iy ≥ 0) && decide (ix ≥ 0)

/-- The 5 x 3 grid of the failing input of C20, row-major; `past` stands for what is read
behind the buffer. -/
def shortcut_grid (past : Nat) : matrix_view Nat :=
  matrix_view.row_major 5 3 [0, 0, 0,  0, 1, 1,  0, 0, 0,  0, 1, 1,  1, 1, 1] past

/-- The 8 x 1 grid of the failing input of C18, row-major; `past` stands for what is read
behind the buffer. -/
def column_grid (past : Nat) : matrix_view Nat :=
  matrix_view.row_major 8 1 [1, 1, 1, 1, 0, 0, 1, 0] past

/-- The visit record the expansion ends with on `column_grid` from (row 4, col 0) with
destination (row 7, col 0). -/
def column_way : matrix_3xn_t :=
  [(4, 0, 0), (4, 1, 1), (5, 0, 1), (3, 1, 2), (3, 2, 3), (2, 2, 4), (2, 3, 5), (1, 3, 6),
    (1, 4, 7), (0, 4, 8), (0, 5, 9)]

theorem insert_if_loop_iff {α : Type} (c : α → Bool) (m : List α) :
    insert_if_loop c m = true ↔ ∀ a ∈ m, c a = true := by
  induction m with
  | nil => simp [insert_if_loop]
  | cons a rest ih =>
    cases hc : c a <;> simp [insert_if_loop, hc, ih]

theorem insert_if_true {α : Type} (m : List α) (v : α) (c : α → Bool)
    (h : (insert_if m v c).1 = true) :
    (∀ a ∈ m, c a = true) ∧ (insert_if m v c).2 = m ++ [v] := by
  unfold insert_if at h ⊢
  by_cases hl : insert_if_loop c m = true
  · simp only [hl, if_true] at h ⊢
    exact ⟨(insert_if_loop_iff c m).1 hl, trivial⟩
  · simp [hl] at h

theorem insert_if_false {α : Type} (m : List α) (v : α) (c : α → Bool)
    (h : (insert_if m v c).1 = false) :
    (∃ a ∈ m, c a = false) ∧ (insert_if m v c).2 = m := by
  unfold insert_if at h ⊢
  by_cases hl : insert_if_loop c m = true
  · simp [hl] at h
  · simp only [hl] at h ⊢
    refine ⟨?_, rfl⟩
    have := (insert_if_loop_iff c m).not.1 hl
    push_neg at this
    obtain ⟨a, ha, hca⟩ := this
    exact ⟨a, ha, by simpa using hca⟩

/-! ## Narrowing to `int` -/

theorem to_int_eq (z : Int) : to_int z = (z + 2147483648) % 4294967296 - 2147483648 := by
  cases z with
  | ofNat n =>
    unfold to_int
    simp only [Int.ofNat_eq_coe, Int.negSucc_eq]
    split <;> omega
  | negSucc n =>
    unfold to_int
    simp only [Int.ofNat_eq_coe, Int.negSucc_eq]
    split <;> omega

theorem to_int_lt (z : Int) : to_int z < 2147483648 := by
  rw [to_int_eq]
  omega

theorem to_int_of_small {z : Int} (h0 : 0 ≤ z) (h1 : z < 2147483648) : to_int z = z := by
  rw [to_int_eq]
  omega

theorem dy_range (j : Nat) : -1 ≤ dy.getD j 0 ∧ dy.getD j 0 ≤ 1 := by
  by_cases hj : j < 4
  · interval_cases j <;> simp [dy]
  · rw [List.getD_eq_default _ _ (by simp [dy]; omega)]
    omega

theorem dx_range (j : Nat) : -1 ≤ dx.getD j 0 ∧ dx.getD j 0 ≤ 1 := by
  by_cases hj : j < 4
  · interval_cases j <;> simp [dx]
  · rw [List.getD_eq_default _ _ (by simp [dx]; omega)]
    omega

/-- From a coordinate below `2^31` a probe that is not negative is the exact neighbour. -/
theorem to_int_probe {n : Nat} {d : Int} (hn : n < 2147483648) (hd : -1 ≤ d ∧ d ≤ 1)
    (h : 0 ≤ to_int ((n : Int) + d)) : to_int ((n : Int) + d) = (n : Int) + d := by
  rw [to_int_eq] at h ⊢
  omega

/-! ## One call of `wave_propagation` -/

theorem wave_guard_nonneg {map : matrix_view T} {blank : T} {iy ix : Int}
    (h : wave_guard map blank iy ix = true) : 0 ≤ iy ∧ 0 ≤ ix := by
  unfold wave_guard at h
  simp only [Bool.and_eq_true, decide_eq_true_eq] at h
  exact ⟨h.1.1.2, h.1.2⟩

theorem wave_loop_post (map : matrix_view T) (blank : T) (seed : row_t)
    (x_to y_to y x d : Nat) :
    ∀ (k i : Nat), i + k ≤ 4 → ∀ (way : matrix_3xn_t) (stop : Bool),
      ∃ added, wave_post map blank seed x_to y_to y x d k i way stop
        (wave_loop map blank x_to y_to y x d k i way stop) added := by
  intro k
  induction k with
  | zero =>
    intro i _ way stop
    refine ⟨[], ?_⟩
    constructor <;> simp [wave_loop, probes_in]
    intro _ _ _ j h1 h2
    omega
  | succ k ih =>
    intro i hik way stop
    rw [wave_loop]
    simp only []
    by_cases hg : wave_guard map blank (to_int ((y : Int) + dy.getD i 0)) (to_int ((x : Int) + dx.getD i 0)) = true
    · obtain ⟨hy0, hx0⟩ := wave_guard_nonneg hg
      have hty : (((to_int ((y : Int) + dy.getD i 0)).toNat : Nat) : Int) = to_int ((y : Int) + dy.getD i 0) :=
        Int.toNat_of_nonneg hy0
      have htx : (((to_int ((x : Int) + dx.getD i 0)).toNat : Nat) : Int) = to_int ((x : Int) + dx.getD i 0) :=
        Int.toNat_of_nonneg hx0
      simp only [hg, if_true]
      generalize hins : insert_if way
        ((to_int ((y : Int) + dy.getD i 0)).toNat, (to_int ((x : Int) + dx.getD i 0)).toNat, d + 1)
        (fun v => !(decide ((v.1 : Int) = to_int ((y : Int) + dy.getD i 0)) &&
          decide ((v.2.1 : Int) = to_int ((x : Int) + dx.getD i 0)))) = ins
      cases hins1 : ins.1 with
      | false =>
        have hf := insert_if_false way _ _ (by rw [hins]; exact hins1)
        rw [hins] at hf
        obtain ⟨⟨a, ha, hca⟩, hway⟩ := hf
        simp only [Bool.not_eq_false', Bool.and_eq_true, decide_eq_true_eq] at hca
        simp only [Bool.false_eq_true, if_false, hway]
        obtain ⟨added, hp⟩ := ih (i + 1) (by omega) way stop
        refine ⟨added, ⟨hp.way_eq, Nat.le_succ_of_le hp.len, hp.label, hp.keeps, ?_, hp.hit⟩⟩
        intro h0 hne
        obtain ⟨m1, m2, m3⟩ := hp.miss h0 hne
        refine ⟨m1, m2, ?_⟩
        intro hmax j hlo hhi hgj
        by_cases hji : j = i
        · subst hji
          refine ⟨a, ?_, hca.1, hca.2, hmax a ha⟩
          rw [hp.way_eq]
          exact List.mem_append_left _ ha
        · exact m3 hmax j (by omega) (by omega) hgj
      | true =>
        have ht := insert_if_true way _ _ (by rw [hins]; exact hins1)
        rw [hins] at ht
        obtain ⟨hall, hway⟩ := ht
        simp only [if_true, hway]
        have hfresh : ∀ v ∈ way, ¬ (v.1 = (to_int ((y : Int) + dy.getD i 0)).toNat ∧
            v.2.1 = (to_int ((x : Int) + dx.getD i 0)).toNat) := by
          intro v hv hc
          have := hall v hv
          simp only [Bool.not_eq_true', Bool.and_eq_false_imp, decide_eq_true_eq,
            decide_eq_false_iff_not] at this
          apply this
          · rw [hc.1]; exact hty
          · rw [hc.2]; exact htx
        by_cases hhit : (decide (to_int ((y : Int) + dy.getD i 0) = (y_to : Int)) &&
            decide (to_int ((x : Int) + dx.getD i 0) = (x_to : Int))) = true
        · simp only [hhit, if_true]
          simp only [Bool.and_eq_true, decide_eq_true_eq] at hhit
          have ey : (to_int ((y : Int) + dy.getD i 0)).toNat = y_to := by
            rw [hhit.1]; exact Int.toNat_natCast y_to
          have ex : (to_int ((x : Int) + dx.getD i 0)).toNat = x_to := by
            rw [hhit.2]; exact Int.toNat_natCast x_to
          refine ⟨[(y_to, x_to, d + 1)], ⟨?_, ?_, ?_, ?_, ?_, ?_⟩⟩
          · rw [ey, ex]
          · simp
          · simp
          · intro hp hb
            refine built.snoc hb hp rfl ⟨i, by omega, hty, htx⟩ ?_ hfresh
            · simp only []
              rw [hty, htx]; exact hg
          · intro h0 hne
            exfalso
            simp only [List.length_append, List.length_singleton, Nat.add_sub_cancel] at h0
            exact hne (List.length_eq_zero.1 h0)
          · intro _
            refine ⟨by simp, [], by simp, ?_⟩
            intro e he
            rw [List.append_nil] at he
            rw [← ey, ← ex]
            exact hfresh e he
        · simp only [hhit, Bool.false_eq_true, if_false]
          obtain ⟨added, hp⟩ := ih (i + 1) (by omega)
            (way ++ [((to_int ((y : Int) + dy.getD i 0)).toNat, (to_int ((x : Int) + dx.getD i 0)).toNat, d + 1)])
            false
          have hnd : ¬ ((to_int ((y : Int) + dy.getD i 0)).toNat = y_to ∧
              (to_int ((x : Int) + dx.getD i 0)).toNat = x_to) := by
            intro hc
            apply hhit
            simp only [Bool.and_eq_true, decide_eq_true_eq]
            rw [← hty, ← htx, hc.1, hc.2]
            exact ⟨rfl, rfl⟩
          refine ⟨((to_int ((y : Int) + dy.getD i 0)).toNat, (to_int ((x : Int) + dx.getD i 0)).toNat, d + 1)
            :: added, ⟨?_, ?_, ?_, ?_, ?_, ?_⟩⟩
          · rw [hp.way_eq]; simp
          · simpa using hp.len
          · intro e he
            rcases List.mem_cons.1 he with h | h
            · rw [h]
            · exact hp.label e h
          · intro hpar hb
            apply hp.keeps (List.mem_append_left _ hpar)
            refine built.snoc hb hpar rfl ⟨i, by omega, hty, htx⟩ ?_ hfresh
            · simp only []
              rw [hty, htx]; exact hg
          · intro h0 hne
            obtain ⟨m1, m2, m3⟩ := hp.miss h0 (by simp)
            refine ⟨?_, ?_, ?_⟩
            · intro e he
              rcases List.mem_cons.1 he with h | h
              · rw [h]; exact hnd
              · exact m1 e h
            · right
              refine ⟨by simp, ?_⟩
              rcases m2 with h | h
              · exact h.2
              · exact h.2
            · intro hmax j hlo hhi hgj
              by_cases hji : j = i
              · subst hji
                refine ⟨((to_int ((y : Int) + dy.getD j 0)).toNat, (to_int ((x : Int) + dx.getD j 0)).toNat,
                  d + 1), ?_, hty, htx, le_refl _⟩
                rw [hp.way_eq]
                simp
              · refine m3 ?_ j (by omega) (by omega) hgj
                intro v hv
                rcases List.mem_append.1 hv with h | h
                · exact hmax v h
                · simp only [List.mem_singleton] at h
                  rw [h]
          · intro hne
            obtain ⟨h1, l, h2, h3⟩ := hp.hit hne
            refine ⟨h1, _ :: l, by rw [h2]; rfl, ?_⟩
            intro e he
            apply h3 e
            simpa using he
    · simp only [hg, Bool.false_eq_true, if_false]
      obtain ⟨added, hp⟩ := ih (i + 1) (by omega) way stop
      refine ⟨added, ⟨hp.way_eq, Nat.le_succ_of_le hp.len, hp.label, hp.keeps, ?_, hp.hit⟩⟩
      intro h0 hne
      obtain ⟨m1, m2, m3⟩ := hp.miss h0 hne
      refine ⟨m1, m2, ?_⟩
      intro hmax j hlo hhi hgj
      by_cases hji : j = i
      · subst hji
        exact absurd hgj hg
      · exact m3 hmax j (by omega) (by omega) hgj

/-! ## Invariants of the expansion -/

theorem built_head {map : matrix_view T} {blank : T} {seed : row_t} {way : matrix_3xn_t}
    (h : built map blank seed way) : ∃ t, way = seed :: t := by
  induction h with
  | seed => exact ⟨[], rfl⟩
  | snoc _ _ _ _ _ _ ih =>
    obtain ⟨t, ht⟩ := ih
    exact ⟨t ++ [_], by rw [ht]; rfl⟩

theorem expanded_mono {map : matrix_view T} {blank : T} {way way' : matrix_3xn_t} {e : row_t}
    (hsub : ∀ v ∈ way, v ∈ way') (h : expanded map blank way e) : expanded map blank way' e := by
  intro j hlo hhi hg
  obtain ⟨e', he', h1, h2, h3⟩ := h j hlo hhi hg
  exact ⟨e', hsub e' he', h1, h2, h3⟩

theorem closed_append {map : matrix_view T} {blank : T} {d : Nat} {way l : matrix_3xn_t}
    (h : closed map blank d way) (hl : ∀ e ∈ l, d ≤ e.2.2) : closed map blank d (way ++ l) := by
  intro e he hlt
  rcases List.mem_append.1 he with h1 | h1
  · exact expanded_mono (fun v hv => List.mem_append_left _ hv) (h e h1 hlt)
  · have := hl e h1
    omega

theorem round_loop_post (map : matrix_view T) (blank : T) (seed : row_t) (x_to y_to d : Nat)
    (way0 : matrix_3xn_t) :
    ∀ (fuel i : Nat) (s s' : wave_state),
      round_inv map blank seed x_to y_to d i way0 s →
      round_loop map blank x_to y_to d fuel i s = some s' →
      round_inv map blank seed x_to y_to d s'.way.length way0 s' ∨
        hit_state map blank seed x_to y_to d s' := by
  intro fuel
  induction fuel with
  | zero => intro i s s' _ h; simp [round_loop] at h
  | succ fuel ih =>
    intro i s s' hinv h
    rw [round_loop] at h
    by_cases hi : i < s.way.length
    · simp only [hi, if_true] at h
      have hgd : s.way.getD i (0, 0, 0) = s.way[i] := List.getD_eq_getElem _ _ hi
      have hmem : s.way[i] ∈ s.way := List.getElem_mem hi
      have hne : s.way ≠ [] := by
        intro hc; rw [hc] at hi; simp at hi
      by_cases hd : (s.way[i]).2.2 = d
      · -- the row is expanded
        obtain ⟨added, hp⟩ := wave_loop_post map blank seed x_to y_to (s.way[i]).1
          (s.way[i]).2.1 d 4 0 (by omega) s.way s.stop
        have hbody : round_body map blank x_to y_to d i s =
            { way := (wave_loop map blank x_to y_to (s.way[i]).1 (s.way[i]).2.1 d 4 0 s.way
                s.stop).1,
              stop := (wave_loop map blank x_to y_to (s.way[i]).1 (s.way[i]).2.1 d 4 0 s.way
                s.stop).2.1,
              y_end := (wave_loop map blank x_to y_to (s.way[i]).1 (s.way[i]).2.1 d 4 0 s.way
                s.stop).2.2 } := by
          unfold round_body wave_propagation
          simp only [hgd, hd, if_true]
        rw [hbody] at h
        generalize wave_loop map blank x_to y_to (s.way[i]).1 (s.way[i]).2.1 d 4 0 s.way
          s.stop = r at h hp
        have hrow : ((s.way[i]).1, (s.way[i]).2.1, d) ∈ s.way := by
          have : ((s.way[i]).1, (s.way[i]).2.1, d) = s.way[i] := by rw [← hd]
          rw [this]; exact hmem
        have hbt := hp.keeps hrow hinv.bt
        by_cases hr : r.2.2 = 0
        · simp only [hr, ne_eq, not_true_eq_false, if_false] at h
          obtain ⟨m1, m2, m3⟩ := hp.miss hr hne
          refine ih (i + 1) _ s' ?_ h
          refine ⟨rfl, hbt, ?_, ?_, ?_, ?_, ?_, ?_⟩
          · intro v hv
            simp only [hp.way_eq] at hv
            rcases List.mem_append.1 hv with h1 | h1
            · exact hinv.mx v h1
            · exact le_of_eq (hp.label v h1)
          · simp only [hp.way_eq]
            apply closed_append hinv.cl
            intro e he
            rw [hp.label e he]; omega
          · intro n e hn hget hed
            simp only [hp.way_eq] at hget ⊢
            by_cases hni : n = i
            · subst hni
              rw [List.getElem?_append_left hi, List.getElem?_eq_getElem hi] at hget
              have he : e = s.way[n] := by injection hget with h1; exact h1.symm
              have := m3 hinv.mx
              rw [hp.way_eq] at this
              rw [he]
              unfold expanded
              rw [hd]
              exact this
            · have hlt : n < i := by omega
              rw [List.getElem?_append_left (by omega)] at hget
              exact expanded_mono (fun v hv => List.mem_append_left _ hv)
                (hinv.ex n e hlt hget hed)
          · simp only [hp.way_eq]
            rw [List.tail_append_of_ne_nil hne]
            intro e he
            rcases List.mem_append.1 he with h1 | h1
            · exact hinv.nd e h1
            · exact m1 e h1
          · intro hst
            simp only [] at hst
            simp only [hp.way_eq]
            rcases m2 with ⟨h1, h2⟩ | ⟨_, h2⟩
            · rw [h1, List.append_nil]
              apply hinv.st
              rw [← h2]; exact hst
            · rw [h2] at hst; exact absurd hst (by simp)
          · obtain ⟨l, hl⟩ := hinv.ext
            exact ⟨l ++ added, by simp only [hp.way_eq, hl, List.append_assoc]⟩
        · simp only [hr, ne_eq, not_false_eq_true, if_true] at h
          injection h with h
          subst h
          right
          obtain ⟨h1, l, h2, h3⟩ := hp.hit hr
          refine ⟨hr, hbt, s.way ++ l, ?_, ?_, h3, ?_, ?_, ?_⟩
          · simp only [hp.way_eq, h2, List.append_assoc]
          · simp only [hp.way_eq, h2, List.length_append, List.length_singleton] at h1 ⊢
            omega
          · apply closed_append hinv.cl
            intro e he
            rw [hp.label e (by rw [h2]; exact List.mem_append_left _ he)]; omega
          · intro v hv
            rcases List.mem_append.1 hv with h4 | h4
            · exact hinv.mx v h4
            · exact le_of_eq (hp.label v (by rw [h2]; exact List.mem_append_left _ h4))
          · intro hc
            exact hne (List.append_eq_nil.1 hc).1
      · have hbody : round_body map blank x_to y_to d i s = s := by
          unfold round_body
          simp only [hgd, hd, if_false]
        rw [hbody] at h
        simp only [hinv.y_end0, ne_eq, not_true_eq_false, if_false] at h
        refine ih (i + 1) s s' ?_ h
        refine ⟨hinv.y_end0, hinv.bt, hinv.mx, hinv.cl, ?_, hinv.nd, hinv.st, hinv.ext⟩
        intro n e hn hget hed
        by_cases hni : n = i
        · subst hni
          rw [List.getElem?_eq_getElem hi] at hget
          injection hget with h1
          rw [h1] at hd
          exact absurd hed hd
        · exact hinv.ex n e (by omega) hget hed
    · simp only [hi, if_false] at h
      injection h with h
      subst h
      left
      refine ⟨hinv.y_end0, hinv.bt, hinv.mx, hinv.cl, ?_, hinv.nd, hinv.st, hinv.ext⟩
      intro n e _ hget hed
      have hn : n < s.way.length := by
        by_contra hc
        rw [List.getElem?_eq_none (by omega)] at hget
        exact absurd hget (by simp)
      exact hinv.ex n e (by omega) hget hed

theorem hit_state_congr {map : matrix_view T} {blank : T} {seed : row_t} {x_to y_to d : Nat}
    {s s' : wave_state} (h : hit_state map blank seed x_to y_to d s) (hw : s'.way = s.way)
    (hy : s'.y_end = s.y_end) : hit_state map blank seed x_to y_to d s' := by
  obtain ⟨h1, h2, h3⟩ := h
  exact ⟨by rw [hy]; exact h1, by rw [hw]; exact h2, by rw [hw, hy]; exact h3⟩

/-- After a hit the loop runs at most one more round, which changes neither the visit record
nor `y_end`. -/
theorem expansion_after_hit (map : matrix_view T) (blank : T) (seed : row_t)
    (hseed : seed.2.2 = 0) (x_to y_to inner fuel d D : Nat) (s s' : wave_state)
    (hs : hit_state map blank seed x_to y_to D s) (hd : d ≠ 0)
    (h : expansion map blank x_to y_to inner fuel d s = some s') :
    s'.way = s.way ∧ s'.y_end = s.y_end := by
  cases fuel with
  | zero => simp [expansion] at h
  | succ fuel =>
    rw [expansion] at h
    cases inner with
    | zero => simp [round_loop] at h
    | succ inner =>
      obtain ⟨t, ht⟩ := built_head hs.bt
      have hlen : 0 < s.way.length := by rw [ht]; simp
      have hbody : round_body map blank x_to y_to d 0 { s with stop := true } =
          { s with stop := true } := by
        unfold round_body
        have : s.way.getD 0 (0, 0, 0) = seed := by rw [ht]; rfl
        simp only [this, hseed]
        rw [if_neg (fun hc => hd hc.symm)]
      rw [round_loop] at h
      simp only [hlen, if_true, hbody, hs.y_end_pos, ne_eq, not_false_eq_true] at h
      simp only [Bool.not_true, Bool.false_eq_true, if_false] at h
      injection h with h
      subst h
      exact ⟨rfl, rfl⟩

theorem closed_succ_of_round {map : matrix_view T} {blank : T} {seed : row_t}
    {x_to y_to d : Nat} {way0 : matrix_3xn_t} {s : wave_state}
    (h : round_inv map blank seed x_to y_to d s.way.length way0 s) :
    closed map blank (d + 1) s.way := by
  intro e he hlt
  by_cases hd : e.2.2 = d
  · obtain ⟨n, hn⟩ := List.mem_iff_getElem?.1 he
    have hlen : n < s.way.length := by
      by_contra hc
      rw [List.getElem?_eq_none (by omega)] at hn
      exact absurd hn (by simp)
    exact h.ex n e hlen hn hd
  · exact h.cl e he (by omega)

theorem expansion_post (map : matrix_view T) (blank : T) (seed : row_t)
    (hseed : seed.2.2 = 0) (x_to y_to inner : Nat) :
    ∀ (fuel d : Nat) (s s' : wave_state),
      run_inv map blank seed x_to y_to d s →
      expansion map blank x_to y_to inner fuel d s = some s' →
      stall_state map blank seed x_to y_to s' ∨
        ∃ D, d ≤ D ∧ hit_state map blank seed x_to y_to D s' := by
  intro fuel
  induction fuel with
  | zero => intro d s s' _ h; simp [expansion] at h
  | succ fuel ih =>
    intro d s s' hinv h
    rw [expansion] at h
    cases hr : round_loop map blank x_to y_to d inner 0 { s with stop := true } with
    | none => simp [hr] at h
    | some s1 =>
      simp only [hr] at h
      have hri : round_inv map blank seed x_to y_to d 0 s.way { s with stop := true } := by
        refine ⟨hinv.y_end0, hinv.bt, ?_, hinv.cl, ?_, hinv.nd, fun _ => rfl, ⟨[], by simp⟩⟩
        · intro v hv
          exact Nat.le_succ_of_le (hinv.mx v hv)
        · intro n e hn
          omega
      rcases round_loop_post map blank seed x_to y_to d s.way inner 0 _ s1 hri hr with hA | hB
      · by_cases hst : s1.stop = true
        · simp only [hst, Bool.not_true, Bool.false_eq_true, if_false] at h
          injection h with h
          subst h
          left
          refine ⟨hA.y_end0, hA.bt, ?_, hA.nd⟩
          intro e he
          apply closed_succ_of_round hA e he
          have hw := hA.st hst
          rw [hw] at he
          exact Nat.lt_succ_of_le (hinv.mx e he)
        · have hst' : s1.stop = false := by simpa using hst
          simp only [hst', Bool.not_false, if_true] at h
          rcases ih (d + 1) s1 s' ⟨hA.y_end0, hA.bt, hA.mx, closed_succ_of_round hA, hA.nd⟩ h
            with h1 | ⟨D, hD, h1⟩
          · exact Or.inl h1
          · exact Or.inr ⟨D, by omega, h1⟩
      · right
        refine ⟨d, le_refl _, ?_⟩
        by_cases hst : s1.stop = true
        · simp only [hst, Bool.not_true, Bool.false_eq_true, if_false] at h
          injection h with h
          subst h
          exact hB
        · have hst' : s1.stop = false := by simpa using hst
          simp only [hst', Bool.not_false, if_true] at h
          obtain ⟨hw, hy⟩ := expansion_after_hit map blank seed hseed x_to y_to inner fuel
            (d + 1) d s1 s' hB (by omega) h
          exact hit_state_congr hB hw hy

theorem expand_post (fuel : Nat) (map : matrix_view T) (x_from y_from x_to y_to : Nat)
    (blank : T) (s : wave_state)
    (h : expand fuel map x_from y_from x_to y_to blank = some s) :
    stall_state map blank (y_from, x_from, 0) x_to y_to s ∨
      ∃ D, hit_state map blank (y_from, x_from, 0) x_to y_to D s := by
  unfold expand at h
  have h0 : run_inv map blank (y_from, x_from, 0) x_to y_to 0
      { way := [(y_from, x_from, 0)], stop := false, y_end := 0 } := by
    refine ⟨rfl, built.seed, ?_, ?_, ?_⟩
    · intro v hv
      simp only [List.mem_singleton] at hv
      rw [hv]
    · intro e _ hlt
      omega
    · intro e he
      simp at he
  rcases expansion_post map blank (y_from, x_from, 0) rfl x_to y_to fuel fuel 0 _ s h0 h
    with h1 | ⟨D, _, h1⟩
  · exact Or.inl h1
  · exact Or.inr ⟨D, h1⟩

/-! ## Shape of a visit record -/

/-- A probed row has coordinates below `2^31`. -/
theorem probed_small {p e : row_t} (h : probed p e) :
    e.1 < 2147483648 ∧ e.2.1 < 2147483648 := by
  obtain ⟨j, _, h1, h2⟩ := h
  have a1 := to_int_lt ((p.1 : Int) + dy.getD j 0)
  have a2 := to_int_lt ((p.2.1 : Int) + dx.getD j 0)
  omega

/-- From a row with coordinates below `2^31` the probes are the 4-neighbours. -/
theorem probed_adjacent4 {p e : row_t} (h : probed p e)
    (hp : p.1 < 2147483648 ∧ p.2.1 < 2147483648) :
    adjacent4 (p.1, p.2.1) (e.1, e.2.1) := by
  obtain ⟨j, hj, h1, h2⟩ := h
  have e1 := to_int_probe hp.1 (dy_range j) (by rw [← h1]; exact Int.ofNat_nonneg _)
  have e2 := to_int_probe hp.2 (dx_range j) (by rw [← h2]; exact Int.ofNat_nonneg _)
  rw [e1] at h1
  rw [e2] at h2
  unfold adjacent4
  interval_cases j <;> simp [dy, dx] at h1 h2 <;> omega

/-- A 4-neighbour with coordinates below `2^31` is one of the probes. -/
theorem adjacent4_probed {p e : row_t} (h : adjacent4 (p.1, p.2.1) (e.1, e.2.1))
    (he : e.1 < 2147483648 ∧ e.2.1 < 2147483648) : probed p e := by
  unfold adjacent4 at h
  simp only [] at h
  have c1 := to_int_of_small (Int.ofNat_nonneg e.1) (by omega)
  have c2 := to_int_of_small (Int.ofNat_nonneg e.2.1) (by omega)
  unfold probed
  rcases h with ⟨h1, h2 | h2⟩ | ⟨h1, h2 | h2⟩
  · refine ⟨0, by omega, ?_, ?_⟩
    · rw [← c1]; congr 1; simp [dy]; omega
    · rw [← c2]; congr 1; simp [dx]; omega
  · refine ⟨2, by omega, ?_, ?_⟩
    · rw [← c1]; congr 1; simp [dy]; omega
    · rw [← c2]; congr 1; simp [dx]; omega
  · refine ⟨1, by omega, ?_, ?_⟩
    · rw [← c1]; congr 1; simp [dy]; omega
    · rw [← c2]; congr 1; simp [dx]; omega
  · refine ⟨3, by omega, ?_, ?_⟩
    · rw [← c1]; congr 1; simp [dy]; omega
    · rw [← c2]; congr 1; simp [dx]; omega

theorem neighbour_iff_adjacent4 (curr_v last_v : row_t) :
    neighbour curr_v last_v = true ↔
      adjacent4 (curr_v.1, curr_v.2.1) (last_v.1, last_v.2.1) := by
  unfold neighbour adjacent4
  simp only [Bool.or_eq_true, Bool.and_eq_true, decide_eq_true_eq]
  constructor
  · rintro (⟨h1 | h1, h2⟩ | ⟨h1 | h1, h2⟩) <;> omega
  · rintro (⟨h1, h2 | h2⟩ | ⟨h1, h2 | h2⟩)
    · right; exact ⟨Or.inl (by omega), h1.symm⟩
    · right; exact ⟨Or.inr (by omega), h1.symm⟩
    · left; exact ⟨Or.inl (by omega), h1.symm⟩
    · left; exact ⟨Or.inr (by omega), h1.symm⟩

theorem adjacent4_symm {a b : Nat × Nat} (h : adjacent4 a b) : adjacent4 b a := by
  unfold adjacent4 at h ⊢
  omega

theorem adjacent4_swap {a b : Nat × Nat} (h : adjacent4 a b) :
    adjacent4 (a.2, a.1) (b.2, b.1) := by
  unfold adjacent4 at h ⊢
  simp only []
  omega

/-- Every row but the first has passed the guard and has, earlier in the record, a row it was
probed from and whose distance is one less. -/
theorem built_parent {map : matrix_view T} {blank : T} {seed : row_t} {way : matrix_3xn_t}
    (h : built map blank seed way) :
    ∀ n e, 0 < n → way[n]? = some e →
      wave_guard map blank e.1 e.2.1 = true ∧
      ∃ m p, m < n ∧ way[m]? = some p ∧ e.2.2 = p.2.2 + 1 ∧ probed p e := by
  induction h with
  | seed =>
    intro n e hn hget
    rw [List.getElem?_eq_none (by simp; omega)] at hget
    exact absurd hget (by simp)
  | @snoc w p e hb hp hd hpr hg _ ih =>
    intro n e' hn hget
    by_cases hlt : n < w.length
    · rw [List.getElem?_append_left hlt] at hget
      obtain ⟨h1, m, q, hm, hq, h2⟩ := ih n e' hn hget
      exact ⟨h1, m, q, hm, by rw [List.getElem?_append_left (by omega)]; exact hq, h2⟩
    · have hnl : n = w.length := by
        by_contra hc
        rw [List.getElem?_eq_none (by simp; omega)] at hget
        exact absurd hget (by simp)
      subst hnl
      rw [List.getElem?_append_right (le_refl _)] at hget
      simp only [Nat.sub_self, List.getElem?_cons_zero] at hget
      injection hget with hget
      subst hget
      obtain ⟨m, hm⟩ := List.mem_iff_getElem?.1 hp
      have hml : m < w.length := by
        by_contra hc
        rw [List.getElem?_eq_none (by omega)] at hm
        exact absurd hm (by simp)
      exact ⟨hg, m, p, hml, by rw [List.getElem?_append_left hml]; exact hm, hd, hpr⟩

theorem built_dist_pos {map : matrix_view T} {blank : T} {seed : row_t} {way : matrix_3xn_t}
    (h : built map blank seed way) (n : Nat) (e : row_t) (hn : 0 < n)
    (hget : way[n]? = some e) : 1 ≤ e.2.2 := by
  obtain ⟨_, m, p, _, _, h2, _⟩ := built_parent h n e hn hget
  omega

/-- Every row but the first has coordinates below `2^31`. -/
theorem built_small {map : matrix_view T} {blank : T} {seed : row_t} {way : matrix_3xn_t}
    (h : built map blank seed way) (n : Nat) (e : row_t) (hn : 0 < n)
    (hget : way[n]? = some e) : e.1 < 2147483648 ∧ e.2.1 < 2147483648 := by
  obtain ⟨_, m, p, _, _, _, h2⟩ := built_parent h n e hn hget
  exact probed_small h2

theorem built_zero {map : matrix_view T} {blank : T} {seed : row_t} {way : matrix_3xn_t}
    (h : built map blank seed way) : way[0]? = some seed := by
  obtain ⟨t, ht⟩ := built_head h
  rw [ht]; simp

/-- No two rows of a visit record have the same coordinate. -/
theorem built_fresh {map : matrix_view T} {blank : T} {seed : row_t} {way : matrix_3xn_t}
    (h : built map blank seed way) :
    ∀ (m n : Nat) (a b : row_t), m < n → way[m]? = some a → way[n]? = some b →
      ¬ (a.1 = b.1 ∧ a.2.1 = b.2.1) := by
  induction h with
  | seed =>
    intro m n a b hmn _ hb
    rw [List.getElem?_eq_none (by simp; omega)] at hb
    exact absurd hb (by simp)
  | @snoc w p e hb hp hd hpr hg hfr ih =>
    intro m n a b hmn ha hb'
    by_cases hlt : n < w.length
    · rw [List.getElem?_append_left hlt] at hb'
      rw [List.getElem?_append_left (by omega)] at ha
      exact ih m n a b hmn ha hb'
    · have hnl : n = w.length := by
        by_contra hc
        rw [List.getElem?_eq_none (by simp; omega)] at hb'
        exact absurd hb' (by simp)
      subst hnl
      rw [List.getElem?_append_right (le_refl _)] at hb'
      simp only [Nat.sub_self, List.getElem?_cons_zero] at hb'
      injection hb' with hb'
      subst hb'
      rw [List.getElem?_append_left hmn] at ha
      exact hfr a (List.getElem?_mem ha)

/-! ## The walk back -/

theorem back_scan_some (way : matrix_3xn_t) (d : Nat) (last_v : row_t) :
    ∀ (i : Nat) (v : row_t), back_scan way d last_v i = some v →
      ∃ j, 0 < j ∧ j ≤ i ∧ v = way.getD j (0, 0, 0) ∧ v.2.2 = d ∧
        neighbour v last_v = true := by
  intro i
  induction i with
  | zero => intro v h; simp [back_scan] at h
  | succ i ih =>
    intro v h
    rw [back_scan] at h
    by_cases hc : (decide ((way.getD (i + 1) (0, 0, 0)).2.2 = d) &&
        neighbour (way.getD (i + 1) (0, 0, 0)) last_v) = true
    · rw [if_pos hc] at h
      injection h with h
      subst h
      simp only [Bool.and_eq_true, decide_eq_true_eq] at hc
      exact ⟨i + 1, by omega, le_refl _, rfl, hc.1, hc.2⟩
    · rw [if_neg hc] at h
      obtain ⟨j, h1, h2, h3⟩ := ih v h
      exact ⟨j, h1, by omega, h3⟩

theorem back_scan_finds (way : matrix_3xn_t) (d : Nat) (last_v : row_t) :
    ∀ (i j : Nat), 0 < j → j ≤ i → (way.getD j (0, 0, 0)).2.2 = d →
      neighbour (way.getD j (0, 0, 0)) last_v = true →
      ∃ v, back_scan way d last_v i = some v := by
  intro i
  induction i with
  | zero => intro j h1 h2; omega
  | succ i ih =>
    intro j h1 h2 h3 h4
    rw [back_scan]
    by_cases hc : (decide ((way.getD (i + 1) (0, 0, 0)).2.2 = d) &&
        neighbour (way.getD (i + 1) (0, 0, 0)) last_v) = true
    · rw [if_pos hc]
      exact ⟨_, rfl⟩
    · rw [if_neg hc]
      by_cases hj : j = i + 1
      · subst hj
        exfalso
        apply hc
        simp only [Bool.and_eq_true, decide_eq_true_eq]
        exact ⟨h3, h4⟩
      · exact ih j h1 (by omega) h3 h4

theorem back_trace_append (way : matrix_3xn_t) (y_end : Nat) :
    ∀ (d : Nat) (last_v : row_t) (min_w res : matrix_3xn_t),
      back_trace way y_end d last_v min_w = some res →
      ∃ extra, res = min_w ++ extra ∧ extra.length = d := by
  intro d
  induction d with
  | zero =>
    intro last_v min_w res h
    simp only [back_trace] at h
    injection h with h
    exact ⟨[], by simp [h], rfl⟩
  | succ d ih =>
    intro last_v min_w res h
    rw [back_trace] at h
    cases hs : back_scan way (d + 1) last_v y_end with
    | none => simp [hs] at h
    | some v =>
      simp only [hs] at h
      obtain ⟨extra, h1, h2⟩ := ih v _ res h
      exact ⟨(v.2.1, v.1, 1) :: extra, by rw [h1]; simp, by simp [h2]⟩

theorem getD_eq_of_getElem? {way : matrix_3xn_t} {j : Nat} (hj : j < way.length) :
    way[j]? = some (way.getD j (0, 0, 0)) := by
  rw [List.getD_eq_getElem _ _ hj, List.getElem?_eq_getElem hj]

/-- The rows appended by the walk back form a 4-adjacent chain, and the walk ends on a row of
distance 1. -/
theorem back_trace_chain (way : matrix_3xn_t) (y_end : Nat) (hy : y_end < way.length) :
    ∀ (d : Nat) (last_v : row_t) (min_w res : matrix_3xn_t),
      back_trace way y_end d last_v min_w = some res →
      (∃ n, 0 < n ∧ way[n]? = some last_v) → last_v.2.2 = d + 1 →
      min_w.getLast? = some (last_v.2.1, last_v.1, 1) → List.Chain' step4 min_w →
      List.Chain' step4 res ∧
        ∃ v n, 0 < n ∧ way[n]? = some v ∧ v.2.2 = 1 ∧
          res.getLast? = some (v.2.1, v.1, 1) := by
  intro d
  induction d with
  | zero =>
    intro last_v min_w res h hidx hd hl hc
    simp only [back_trace] at h
    injection h with h
    subst h
    obtain ⟨n, hn, hget⟩ := hidx
    exact ⟨hc, last_v, n, hn, hget, hd, hl⟩
  | succ d ih =>
    intro last_v min_w res h hidx hd hl hc
    rw [back_trace] at h
    cases hs : back_scan way (d + 1) last_v y_end with
    | none => simp [hs] at h
    | some v =>
      simp only [hs] at h
      obtain ⟨j, hj0, hjy, hv, hvd, hnb⟩ := back_scan_some way (d + 1) last_v y_end v hs
      have hget : way[j]? = some v := by
        rw [hv]; exact getD_eq_of_getElem? (by omega)
      refine ih v _ res h ⟨j, hj0, hget⟩ hvd (List.getLast?_concat _) ?_
      apply List.Chain'.append hc (List.chain'_singleton _)
      intro a ha b hb
      rw [hl] at ha
      simp only [Option.mem_def, Option.some.injEq, List.head?_cons] at ha hb
      subst ha
      subst hb
      have := (neighbour_iff_adjacent4 v last_v).1 hnb
      exact adjacent4_swap (adjacent4_symm this)

/-- On a visit record built by the expansion the walk back never fails. -/
theorem back_trace_total {map : matrix_view T} {blank : T} {seed : row_t}
    {way : matrix_3xn_t} (hb : built map blank seed way) (hseed : seed.2.2 = 0)
    (y_end : Nat) :
    ∀ (d : Nat) (last_v : row_t) (min_w : matrix_3xn_t),
      (∃ n, 0 < n ∧ n ≤ y_end + 1 ∧ way[n]? = some last_v) → last_v.2.2 = d + 1 →
      ∃ res, back_trace way y_end d last_v min_w = some res := by
  intro d
  induction d with
  | zero => intro last_v min_w _ _; exact ⟨min_w, rfl⟩
  | succ d ih =>
    intro last_v min_w hidx hd
    obtain ⟨n, hn0, hny, hget⟩ := hidx
    obtain ⟨_, m, p, hmn, hp, hdist, hpr⟩ := built_parent hb n last_v hn0 hget
    have hm0 : 0 < m := by
      by_contra hc
      have hm : m = 0 := by omega
      subst hm
      rw [built_zero hb] at hp
      injection hp with hp
      subst hp
      omega
    have hml : m < way.length := by
      by_contra hc
      rw [List.getElem?_eq_none (by omega)] at hp
      exact absurd hp (by simp)
    have hpD : way.getD m (0, 0, 0) = p := by
      have := getD_eq_of_getElem? hml
      rw [hp] at this
      injection this with this
      exact this.symm
    have hnb : neighbour (way.getD m (0, 0, 0)) last_v = true := by
      rw [hpD, neighbour_iff_adjacent4]
      exact probed_adjacent4 hpr (built_small hb m p hm0 hp)
    obtain ⟨v, hs⟩ := back_scan_finds way (d + 1) last_v y_end m hm0 (by omega)
      (by rw [hpD]; omega) hnb
    obtain ⟨j, hj0, hjy, hv, hvd, _⟩ := back_scan_some way (d + 1) last_v y_end v hs
    have hjl : j < way.length := by
      by_contra hc
      have hdef : way.getD j (0, 0, 0) = (0, 0, 0) :=
        List.getD_eq_default _ _ (by omega)
      rw [hdef] at hv
      rw [hv] at hvd
      simp at hvd
    rw [back_trace, hs]
    simp only []
    exact ih v _ ⟨j, hj0, by omega, by rw [hv]; exact getD_eq_of_getElem? hjl⟩ hvd

/-- From a hit state the reconstruction returns a path: the destination row, then as many rows
as the destination's distance minus one, then the origin row; consecutive rows are 4-adjacent,
the last pair when the origin has coordinates below `2^31`. -/
theorem reconstruct_hit {map : matrix_view T} {blank : T} {x_from y_from x_to y_to D : Nat}
    {s : wave_state} (h : hit_state map blank (y_from, x_from, 0) x_to y_to D s) :
    ∃ extra, reconstruct s.way s.y_end x_from y_from x_to y_to =
        outcome.path ((x_to, y_to, 1) :: extra ++ [(x_from, y_from, 1)]) ∧
      extra.length = D ∧ List.Chain' step4 ((x_to, y_to, 1) :: extra) ∧
      (y_from < 2147483648 → x_from < 2147483648 →
        List.Chain' step4 ((x_to, y_to, 1) :: extra ++ [(x_from, y_from, 1)])) := by
  obtain ⟨w, hw, hy, _, _, _, hne⟩ := h.shape
  have hwl : 0 < w.length := List.length_pos.2 hne
  have hlast : s.way.getD s.y_end (0, 0, 0) = (y_to, x_to, D + 1) := by
    rw [hw, hy, List.getD_eq_getElem _ _ (by simp)]
    simp
  have hget : s.way[s.y_end]? = some (y_to, x_to, D + 1) := by
    rw [← hlast]
    exact getD_eq_of_getElem? (by rw [hw, hy]; simp)
  have hidx : ∃ n, 0 < n ∧ n ≤ s.y_end - 1 + 1 ∧ s.way[n]? = some (y_to, x_to, D + 1) :=
    ⟨s.y_end, by omega, by omega, hget⟩
  obtain ⟨res, hres⟩ := back_trace_total h.bt rfl (s.y_end - 1) D (y_to, x_to, D + 1)
    [(x_to, y_to, 1)] hidx rfl
  obtain ⟨extra, he1, he2⟩ := back_trace_append _ _ _ _ _ _ hres
  have hylt : s.y_end - 1 < s.way.length := by rw [hw, hy]; simp; omega
  obtain ⟨hch, v, n, hn0, hvn, hvd, hvl⟩ := back_trace_chain s.way (s.y_end - 1) hylt D
    (y_to, x_to, D + 1) [(x_to, y_to, 1)] res hres ⟨s.y_end, by omega, hget⟩ rfl rfl
    (List.chain'_singleton _)
  refine ⟨extra, ?_, he2, ?_, ?_⟩
  · unfold reconstruct
    simp only [hlast, Nat.add_sub_cancel, hres, he1]
    rfl
  · have : (x_to, y_to, 1) :: extra = res := by rw [he1]; rfl
    rw [this]
    exact hch
  · intro hy31 hx31
    have : (x_to, y_to, 1) :: extra ++ [(x_from, y_from, 1)] = res ++ [(x_from, y_from, 1)] := by
      rw [he1]; rfl
    rw [this]
    apply List.Chain'.append hch (List.chain'_singleton _)
    intro a ha b hb
    rw [hvl] at ha
    simp only [Option.mem_def, Option.some.injEq, List.head?_cons] at ha hb
    subst ha
    subst hb
    obtain ⟨_, m, p, hmn, hp, hdist, hpr⟩ := built_parent h.bt n v hn0 hvn
    have hm : m = 0 := by
      by_contra hc
      have := built_dist_pos h.bt m p (by omega) hp
      omega
    subst hm
    rw [built_zero h.bt] at hp
    injection hp with hp
    subst hp
    have := probed_adjacent4 hpr ⟨hy31, hx31⟩
    exact adjacent4_swap (adjacent4_symm this)

/-- A returned path comes from a hit state of the expansion. -/
theorem lee_neumann_path {fuel : Nat} {map : matrix_view T} {x_from y_from x_to y_to : Nat}
    {blank : T} {p : matrix_3xn_t}
    (h : lee_neumann fuel map x_from y_from x_to y_to blank = some (outcome.path p)) :
    ∃ s D, expand fuel map x_from y_from x_to y_to blank = some s ∧
      hit_state map blank (y_from, x_from, 0) x_to y_to D s ∧
      reconstruct s.way s.y_end x_from y_from x_to y_to = outcome.path p := by
  unfold lee_neumann at h
  split at h
  · simp at h
  · split at h
    · simp at h
    · cases he : expand fuel map x_from y_from x_to y_to blank with
      | none => simp [he] at h
      | some s =>
        simp only [he] at h
        split at h
        · simp at h
        · rename_i hy
          injection h with h
          rcases expand_post fuel map x_from y_from x_to y_to blank s he with h1 | ⟨D, h1⟩
          · exact absurd h1.y_end0 hy
          · exact ⟨s, D, rfl, h1, h⟩

/-! ## Shortest paths -/

theorem wave_guard_of_in_grid {map : matrix_view T} {blank : T} {y x : Nat}
    (h : y < map.size ∧ x < map.csize ∧ map.cell y x = blank) :
    wave_guard map blank (y : Int) (x : Int) = true := by
  unfold wave_guard size_gt
  simp only [Int.toNat_natCast, Bool.and_eq_true, Bool.or_eq_true, decide_eq_true_eq]
  refine ⟨⟨⟨Or.inl ⟨by omega, by omega⟩, by omega⟩, by omega⟩, h.2.2⟩

/-- In a record closed up to distance `D`, a chain of 4-adjacent guard-passing cells that
starts at the cell of a row `e` and is short enough ends at the cell of a row of the record. -/
theorem closed_walk {map : matrix_view T} {blank : T} {D : Nat} {w : matrix_3xn_t}
    (hcl : closed map blank D w) :
    ∀ (q : List (Nat × Nat)) (c : Nat × Nat) (e : row_t), e ∈ w → (e.1, e.2.1) = c →
      List.Chain adjacent4 c q →
      (∀ c' ∈ q, wave_guard map blank (c'.1 : Int) (c'.2 : Int) = true) →
      (∀ c' ∈ q, c'.1 < 2147483648 ∧ c'.2 < 2147483648) →
      e.2.2 + q.length ≤ D →
      ∃ e' ∈ w, (c :: q).getLast? = some (e'.1, e'.2.1) ∧ e'.2.2 ≤ e.2.2 + q.length := by
  intro q
  induction q with
  | nil =>
    intro c e he hc _ _ _ _
    exact ⟨e, he, by simp [hc], by simp⟩
  | cons c' q ih =>
    intro c e he hc hch hg hsm hlen
    simp only [List.length_cons] at hlen
    rw [List.chain_cons] at hch
    have hadj : adjacent4 (e.1, e.2.1) (c'.1, c'.2) := by rw [hc]; exact hch.1
    obtain ⟨j, hj, h1, h2⟩ := adjacent4_probed (p := e) (e := (c'.1, c'.2, 0)) hadj
      (hsm c' (List.mem_cons_self _ _))
    simp only [] at h1 h2
    have hgc := hg c' (List.mem_cons_self _ _)
    rw [h1, h2] at hgc
    obtain ⟨e1, he1, h3, h4, h5⟩ := hcl e he (by omega) j (Nat.zero_le _) hj hgc
    have hpos : (e1.1, e1.2.1) = c' := by
      have a1 : (e1.1 : Int) = (c'.1 : Int) := by rw [h3, h1]
      have a2 : (e1.2.1 : Int) = (c'.2 : Int) := by rw [h4, h2]
      have b1 : e1.1 = c'.1 := by exact_mod_cast a1
      have b2 : e1.2.1 = c'.2 := by exact_mod_cast a2
      rw [b1, b2]
    obtain ⟨e', he', h6, h7⟩ := ih c' e1 he1 hpos hch.2
      (fun c2 hc2 => hg c2 (List.mem_cons_of_mem _ hc2))
      (fun c2 hc2 => hsm c2 (List.mem_cons_of_mem _ hc2)) (by omega)
    refine ⟨e', he', ?_, by simp only [List.length_cons]; omega⟩
    rw [List.getLast?_cons_cons]
    exact h6

/-- In a hit state of round `D` every chain of 4-adjacent guard-passing cells from the origin
to the destination has at least `D + 2` cells. -/
theorem hit_state_lower_bound {map : matrix_view T} {blank : T}
    {x_from y_from x_to y_to D : Nat} {s : wave_state}
    (h : hit_state map blank (y_from, x_from, 0) x_to y_to D s) (q : List (Nat × Nat))
    (hhead : q.head? = some (y_from, x_from)) (hlast : q.getLast? = some (y_to, x_to))
    (hg : ∀ c ∈ q.tail, wave_guard map blank (c.1 : Int) (c.2 : Int) = true)
    (hsm : ∀ c ∈ q.tail, c.1 < 2147483648 ∧ c.2 < 2147483648)
    (hadj : List.Chain' adjacent4 q) : D + 2 ≤ q.length := by
  obtain ⟨w, hw, _, hoff, hcl, _, hne⟩ := h.shape
  obtain ⟨t, ht⟩ := built_head h.bt
  have hseed : (y_from, x_from, 0) ∈ w := by
    cases w with
    | nil => exact absurd rfl hne
    | cons a w' =>
      rw [ht] at hw
      simp only [List.cons_append, List.cons.injEq] at hw
      rw [← hw.1]
      exact List.mem_cons_self _ _
  cases q with
  | nil => simp at hhead
  | cons c q' =>
    simp only [List.head?_cons, Option.some.injEq] at hhead
    subst hhead
    by_contra hlt
    simp only [List.length_cons] at hlt
    obtain ⟨e', he', h1, _⟩ := closed_walk hcl q' (y_from, x_from) (y_from, x_from, 0) hseed rfl
      hadj hg hsm (by simp only []; omega)
    rw [hlast] at h1
    injection h1 with h1
    injection h1 with h2 h3
    exact hoff e' he' ⟨h2.symm, h3.symm⟩

/-! ## Fuel -/

theorem round_loop_mono (map : matrix_view T) (blank : T) (x_to y_to d : Nat) :
    ∀ (fuel fuel' i : Nat) (s s' : wave_state), fuel ≤ fuel' →
      round_loop map blank x_to y_to d fuel i s = some s' →
      round_loop map blank x_to y_to d fuel' i s = some s' := by
  intro fuel
  induction fuel with
  | zero => intro fuel' i s s' _ h; simp [round_loop] at h
  | succ fuel ih =>
    intro fuel' i s s' hle h
    cases fuel' with
    | zero => omega
    | succ fuel' =>
      rw [round_loop] at h ⊢
      by_cases hi : i < s.way.length
      · simp only [hi, if_true] at h ⊢
        by_cases hy : (round_body map blank x_to y_to d i s).y_end ≠ 0
        · rw [if_pos hy] at h ⊢
          exact h
        · rw [if_neg hy] at h ⊢
          exact ih fuel' (i + 1) _ s' (by omega) h
      · simp only [hi, if_false] at h ⊢
        exact h

theorem expansion_mono (map : matrix_view T) (blank : T) (x_to y_to : Nat)
    (inner inner' : Nat) (hin : inner ≤ inner') :
    ∀ (fuel fuel' d : Nat) (s s' : wave_state), fuel ≤ fuel' →
      expansion map blank x_to y_to inner fuel d s = some s' →
      expansion map blank x_to y_to inner' fuel' d s = some s' := by
  intro fuel
  induction fuel with
  | zero => intro fuel' d s s' _ h; simp [expansion] at h
  | succ fuel ih =>
    intro fuel' d s s' hle h
    cases fuel' with
    | zero => omega
    | succ fuel' =>
      rw [expansion] at h ⊢
      cases hr : round_loop map blank x_to y_to d inner 0 { s with stop := true } with
      | none => simp [hr] at h
      | some s1 =>
        rw [round_loop_mono map blank x_to y_to d inner inner' 0 _ s1 hin hr]
        simp only [hr] at h ⊢
        by_cases hst : (!s1.stop) = true
        · rw [if_pos hst] at h ⊢
          exact ih fuel' (d + 1) s1 s' (by omega) h
        · rw [if_neg hst] at h ⊢
          exact h

/-- More fuel does not change a result. -/
theorem lee_neumann_mono (fuel fuel' : Nat) (hle : fuel ≤ fuel') (map : matrix_view T)
    (x_from y_from x_to y_to : Nat) (blank : T) (r : outcome)
    (h : lee_neumann fuel map x_from y_from x_to y_to blank = some r) :
    lee_neumann fuel' map x_from y_from x_to y_to blank = some r := by
  unfold lee_neumann at h ⊢
  split
  · rename_i h1
    rw [if_pos h1] at h
    exact h
  · rename_i h1
    rw [if_neg h1] at h
    split
    · rename_i h2
      rw [if_pos h2] at h
      exact h
    · rename_i h2
      rw [if_neg h2] at h
      cases he : expand fuel map x_from y_from x_to y_to blank with
      | none => simp [he] at h
      | some s =>
        have he' : expand fuel' map x_from y_from x_to y_to blank = some s := by
          unfold expand at he ⊢
          exact expansion_mono map blank x_to y_to fuel fuel' hle fuel fuel' 0 _ s hle he
        simp only [he] at h
        simp only [he']
        exact h

/-- What the body of the inner loop does to the visit record: it appends at most four rows,
all of distance `d + 1`, and none when the row at `i` is not of distance `d`. -/
theorem round_body_way (map : matrix_view T) (blank : T) (x_to y_to d i : Nat)
    (s : wave_state) :
    ∃ added, (round_body map blank x_to y_to d i s).way = s.way ++ added ∧
      (∀ e ∈ added, e.2.2 = d + 1) ∧ added.length ≤ 4 ∧
      ((s.way.getD i (0, 0, 0)).2.2 ≠ d → added = []) := by
  unfold round_body
  by_cases hd : (s.way.getD i (0, 0, 0)).2.2 = d
  · simp only [hd, if_true]
    obtain ⟨added, hp⟩ := wave_loop_post map blank (0, 0, 0) x_to y_to
      (s.way.getD i (0, 0, 0)).1 (s.way.getD i (0, 0, 0)).2.1 d 4 0 (by omega) s.way s.stop
    exact ⟨added, hp.way_eq, hp.label, hp.len, fun h => absurd rfl h⟩
  · simp only [hd, if_false]
    exact ⟨[], by simp, by simp, by simp, fun _ => rfl⟩

/-- The inner loop ends: the rows it appends are not of the distance it expands. -/
theorem round_loop_terminates (map : matrix_view T) (blank : T) (x_to y_to d : Nat) :
    ∀ (n i : Nat) (s : wave_state),
      4 * (s.way.drop i).countP (fun e => decide (e.2.2 = d)) + (s.way.length - i) ≤ n →
      ∃ s', round_loop map blank x_to y_to d (n + 1) i s = some s' := by
  intro n
  induction n with
  | zero =>
    intro i s hle
    rw [round_loop]
    have : ¬ i < s.way.length := by omega
    simp only [this, if_false]
    exact ⟨s, rfl⟩
  | succ n ih =>
    intro i s hle
    rw [round_loop]
    by_cases hi : i < s.way.length
    · simp only [hi, if_true]
      by_cases hy : (round_body map blank x_to y_to d i s).y_end ≠ 0
      · rw [if_pos hy]
        exact ⟨_, rfl⟩
      · rw [if_neg hy]
        apply ih
        obtain ⟨added, hw, hlab, hlen, hnone⟩ := round_body_way map blank x_to y_to d i s
        rw [hw, List.drop_append_of_le_length (by omega), List.countP_append,
          List.length_append]
        have hz : List.countP (fun e : row_t => decide (e.2.2 = d)) added = 0 := by
          rw [List.countP_eq_zero]
          intro e he
          have := hlab e he
          simp only [decide_eq_true_eq]
          omega
        rw [hz]
        rw [List.drop_eq_getElem_cons hi, List.countP_cons] at hle
        have hgd : s.way.getD i (0, 0, 0) = s.way[i] := List.getD_eq_getElem _ _ hi
        by_cases hd : (s.way[i]).2.2 = d
        · simp only [hd, decide_True, if_true] at hle
          omega
        · have : added = [] := hnone (by rw [hgd]; exact hd)
          subst this
          simp only [hd, decide_False, Bool.false_eq_true, if_false] at hle
          simp only [List.length_nil]
          omega
    · simp only [hi, if_false]
      exact ⟨s, rfl⟩

/-! ## The expansion reaches what can be reached -/

theorem expansion_after_hit_total (map : matrix_view T) (blank : T) (seed : row_t)
    (hseed : seed.2.2 = 0) (x_to y_to inner fuel d D : Nat) (s : wave_state)
    (hs : hit_state map blank seed x_to y_to D s) (hd : d ≠ 0) :
    expansion map blank x_to y_to (inner + 1) (fuel + 1) d s = some { s with stop := true } := by
  rw [expansion]
  obtain ⟨t, ht⟩ := built_head hs.bt
  have hlen : 0 < s.way.length := by rw [ht]; simp
  have hbody : round_body map blank x_to y_to d 0 { s with stop := true } =
      { s with stop := true } := by
    unfold round_body
    have : s.way.getD 0 (0, 0, 0) = seed := by rw [ht]; rfl
    simp only [this, hseed]
    rw [if_neg (fun hc => hd hc.symm)]
  rw [round_loop]
  simp only [hlen, if_true, hbody, hs.y_end_pos, ne_eq, not_false_eq_true]
  simp only [Bool.not_true, Bool.false_eq_true, if_false]

theorem run_inv_walk_long {map : matrix_view T} {blank : T} {x_from y_from x_to y_to d : Nat}
    {s : wave_state} (h : run_inv map blank (y_from, x_from, 0) x_to y_to d s)
    (hne : ¬ (y_from = y_to ∧ x_from = x_to)) (q : List (Nat × Nat))
    (hhead : q.head? = some (y_from, x_from)) (hlast : q.getLast? = some (y_to, x_to))
    (hg : ∀ c ∈ q.tail, wave_guard map blank (c.1 : Int) (c.2 : Int) = true)
    (hsm : ∀ c ∈ q.tail, c.1 < 2147483648 ∧ c.2 < 2147483648)
    (hadj : List.Chain' adjacent4 q) : d + 2 ≤ q.length := by
  obtain ⟨t, ht⟩ := built_head h.bt
  cases q with
  | nil => simp at hhead
  | cons c q' =>
    simp only [List.head?_cons, Option.some.injEq] at hhead
    subst hhead
    by_contra hlt
    simp only [List.length_cons] at hlt
    obtain ⟨e', he', h1, _⟩ := closed_walk h.cl q' (y_from, x_from) (y_from, x_from, 0)
      (by rw [ht]; exact List.mem_cons_self _ _) rfl hadj hg hsm (by simp only []; omega)
    rw [hlast] at h1
    injection h1 with h1
    injection h1 with h2 h3
    rw [ht] at he'
    rcases List.mem_cons.1 he' with h4 | h4
    · rw [h4] at h2 h3
      exact hne ⟨h2.symm, h3.symm⟩
    · have := h.nd e' (by rw [ht]; exact h4)
      exact this ⟨h2.symm, h3.symm⟩

/-- If some chain of 4-adjacent guard-passing cells leads from the origin to a different
destination, the expansion loop returns when given enough fuel. -/
theorem expansion_returns {map : matrix_view T} {blank : T} {x_from y_from x_to y_to : Nat}
    (hne : ¬ (y_from = y_to ∧ x_from = x_to)) (q : List (Nat × Nat))
    (hhead : q.head? = some (y_from, x_from)) (hlast : q.getLast? = some (y_to, x_to))
    (hg : ∀ c ∈ q.tail, wave_guard map blank (c.1 : Int) (c.2 : Int) = true)
    (hsm : ∀ c ∈ q.tail, c.1 < 2147483648 ∧ c.2 < 2147483648)
    (hadj : List.Chain' adjacent4 q) :
    ∀ (n d : Nat) (s : wave_state), run_inv map blank (y_from, x_from, 0) x_to y_to d s →
      q.length ≤ d + n + 1 →
      ∃ inner fuel s', expansion map blank x_to y_to inner fuel d s = some s' := by
  intro n
  induction n with
  | zero =>
    intro d s hinv hlen
    have := run_inv_walk_long hinv hne q hhead hlast hg hsm hadj
    omega
  | succ n ih =>
    intro d s hinv hlen
    obtain ⟨s1, hr⟩ := round_loop_terminates map blank x_to y_to d
      (4 * (s.way.drop 0).countP (fun e => decide (e.2.2 = d)) + (s.way.length - 0)) 0
      { s with stop := true } (le_refl _)
    generalize 4 * (s.way.drop 0).countP (fun e => decide (e.2.2 = d)) + (s.way.length - 0)
      = N at hr
    have hri : round_inv map blank (y_from, x_from, 0) x_to y_to d 0 s.way
        { s with stop := true } := by
      refine ⟨hinv.y_end0, hinv.bt, ?_, hinv.cl, ?_, hinv.nd, fun _ => rfl, ⟨[], by simp⟩⟩
      · intro v hv
        exact Nat.le_succ_of_le (hinv.mx v hv)
      · intro n e hn
        omega
    by_cases hst : s1.stop = true
    · refine ⟨N + 1, 1, s1, ?_⟩
      rw [expansion, hr]
      simp only [hst, Bool.not_true, Bool.false_eq_true, if_false]
    · have hst' : s1.stop = false := by simpa using hst
      rcases round_loop_post map blank (y_from, x_from, 0) x_to y_to d s.way (N + 1) 0 _ s1
        hri hr with hA | hB
      · obtain ⟨inner2, fuel2, s', h2⟩ := ih (d + 1) s1
          ⟨hA.y_end0, hA.bt, hA.mx, closed_succ_of_round hA, hA.nd⟩ (by omega)
        refine ⟨max (N + 1) inner2, fuel2 + 1, s', ?_⟩
        rw [expansion, round_loop_mono map blank x_to y_to d (N + 1) _ 0 _ s1
          (le_max_left _ _) hr]
        simp only [hst', Bool.not_false, if_true]
        exact expansion_mono map blank x_to y_to inner2 _ (le_max_right _ _) fuel2 fuel2
          (d + 1) s1 s' (le_refl _) h2
      · refine ⟨N + 1, 2, { s1 with stop := true }, ?_⟩
        rw [expansion, hr]
        simp only [hst', Bool.not_false, if_true]
        exact expansion_after_hit_total map blank (y_from, x_from, 0) rfl x_to y_to N 0
          (d + 1) d s1 hB (by omega)

theorem stall_no_walk {map : matrix_view T} {blank : T} {x_from y_from x_to y_to : Nat}
    {s : wave_state} (h : stall_state map blank (y_from, x_from, 0) x_to y_to s)
    (hne : ¬ (y_from = y_to ∧ x_from = x_to)) (q : List (Nat × Nat))
    (hhead : q.head? = some (y_from, x_from)) (hlast : q.getLast? = some (y_to, x_to))
    (hg : ∀ c ∈ q.tail, wave_guard map blank (c.1 : Int) (c.2 : Int) = true)
    (hsm : ∀ c ∈ q.tail, c.1 < 2147483648 ∧ c.2 < 2147483648)
    (hadj : List.Chain' adjacent4 q) : False := by
  have hinv : run_inv map blank (y_from, x_from, 0) x_to y_to (q.length +
      (s.way.map (fun e => e.2.2)).sum) s := by
    refine ⟨h.y_end0, h.bt, ?_, fun e he _ => h.all e he, h.nd⟩
    intro v hv
    have : v.2.2 ≤ (s.way.map (fun e => e.2.2)).sum :=
      List.single_le_sum (fun _ _ => Nat.zero_le _) _ (List.mem_map_of_mem _ hv)
    omega
  have := run_inv_walk_long hinv hne q hhead hlast hg hsm hadj
  omega

/-- If some chain of 4-adjacent guard-passing cells leads from a blank in-bounds origin to a
different blank in-bounds destination, `lee_neumann` returns a path, for every fuel from some
amount on. -/
theorem lee_neumann_returns {map : matrix_view T} {blank : T} {x_from y_from x_to y_to : Nat}
    (hfrom : y_from < map.size ∧ x_from < map.csize ∧ map.cell y_from x_from = blank)
    (hto : y_to < map.size ∧ x_to < map.csize ∧ map.cell y_to x_to = blank)
    (hne : ¬ (y_from = y_to ∧ x_from = x_to)) (q : List (Nat × Nat))
    (hhead : q.head? = some (y_from, x_from)) (hlast : q.getLast? = some (y_to, x_to))
    (hg : ∀ c ∈ q.tail, wave_guard map blank (c.1 : Int) (c.2 : Int) = true)
    (hsm : ∀ c ∈ q.tail, c.1 < 2147483648 ∧ c.2 < 2147483648)
    (hadj : List.Chain' adjacent4 q) :
    ∃ fuel p, ∀ fuel', fuel ≤ fuel' →
      lee_neumann fuel' map x_from y_from x_to y_to blank = some (outcome.path p) := by
  have h0 : run_inv map blank (y_from, x_from, 0) x_to y_to 0
      { way := [(y_from, x_from, 0)], stop := false, y_end := 0 } := by
    refine ⟨rfl, built.seed, ?_, ?_, ?_⟩
    · intro v hv
      simp only [List.mem_singleton] at hv
      rw [hv]
    · intro e _ hlt
      omega
    · intro e he
      simp at he
  obtain ⟨inner, fuel, s, hs⟩ := expansion_returns hne q hhead hlast hg hsm hadj q.length 0 _ h0
    (by omega)
  have hexp : expand (max inner fuel) map x_from y_from x_to y_to blank = some s := by
    unfold expand
    exact expansion_mono map blank x_to y_to inner _ (le_max_left _ _) fuel _ 0 _ s
      (le_max_right _ _) hs
  rcases expand_post _ map x_from y_from x_to y_to blank s hexp with h1 | ⟨D, h1⟩
  · exact absurd (stall_no_walk h1 hne q hhead hlast hg hsm hadj) id
  · obtain ⟨extra, he, _, _⟩ := reconstruct_hit h1
    refine ⟨max inner fuel, (x_to, y_to, 1) :: extra ++ [(x_from, y_from, 1)],
      fun fuel' hle => ?_⟩
    apply lee_neumann_mono (max inner fuel) fuel' hle
    unfold lee_neumann
    rw [if_neg (by omega), if_neg (by rw [hfrom.2.2, hto.2.2]; simp)]
    simp only [hexp, h1.y_end_pos, if_false]
    rw [he]

/-! ## Rows of a returned path -/

theorem back_trace_rows (way : matrix_3xn_t) (y_end : Nat) :
    ∀ (d : Nat) (last_v : row_t) (min_w res : matrix_3xn_t),
      back_trace way y_end d last_v min_w = some res →
      ∀ r ∈ res, r ∈ min_w ∨ ∃ j, 0 < j ∧ j ≤ y_end ∧
        r = ((way.getD j (0, 0, 0)).2.1, (way.getD j (0, 0, 0)).1, 1) := by
  intro d
  induction d with
  | zero =>
    intro last_v min_w res h r hr
    simp only [back_trace] at h
    injection h with h
    subst h
    exact Or.inl hr
  | succ d ih =>
    intro last_v min_w res h r hr
    rw [back_trace] at h
    cases hs : back_scan way (d + 1) last_v y_end with
    | none => simp [hs] at h
    | some v =>
      simp only [hs] at h
      obtain ⟨j, hj0, hjy, hv, _, _⟩ := back_scan_some way (d + 1) last_v y_end v hs
      rcases ih v _ res h r hr with h1 | h1
      · rcases List.mem_append.1 h1 with h2 | h2
        · exact Or.inl h2
        · simp only [List.mem_singleton] at h2
          exact Or.inr ⟨j, hj0, hjy, by rw [h2, hv]⟩
      · exact Or.inr h1

/-- Every row of a returned path is the origin row or the row `(x, y, 1)` of a row `(y, x, _)`
of the visit record other than the seed; such a row has passed the guard. -/
theorem reconstruct_rows {map : matrix_view T} {blank : T} {x_from y_from x_to y_to D : Nat}
    {s : wave_state} (h : hit_state map blank (y_from, x_from, 0) x_to y_to D s)
    {p : matrix_3xn_t}
    (hp : reconstruct s.way s.y_end x_from y_from x_to y_to = outcome.path p) :
    ∀ r ∈ p, r = (x_from, y_from, 1) ∨
      (r.2.2 = 1 ∧ wave_guard map blank (r.2.1 : Int) (r.1 : Int) = true ∧
        ∃ n v, 0 < n ∧ s.way[n]? = some v ∧ r = (v.2.1, v.1, 1)) := by
  obtain ⟨w, hw, hy, _, _, _, hne⟩ := h.shape
  have hwl : 0 < w.length := List.length_pos.2 hne
  have hlast : s.way.getD s.y_end (0, 0, 0) = (y_to, x_to, D + 1) := by
    rw [hw, hy, List.getD_eq_getElem _ _ (by simp)]
    simp
  have hlen : s.way.length = s.y_end + 1 := by rw [hw, hy]; simp
  have hrow : ∀ j, 0 < j → j ≤ s.y_end → ∀ r : row_t,
      r = ((s.way.getD j (0, 0, 0)).2.1, (s.way.getD j (0, 0, 0)).1, 1) →
      (r.2.2 = 1 ∧ wave_guard map blank (r.2.1 : Int) (r.1 : Int) = true ∧
        ∃ n v, 0 < n ∧ s.way[n]? = some v ∧ r = (v.2.1, v.1, 1)) := by
    intro j hj0 hjy r hr
    have hget : s.way[j]? = some (s.way.getD j (0, 0, 0)) :=
      getD_eq_of_getElem? (by omega)
    obtain ⟨hg, _⟩ := built_parent h.bt j _ hj0 hget
    refine ⟨by rw [hr], by rw [hr]; exact hg, j, _, hj0, hget, hr⟩
  unfold reconstruct at hp
  simp only [hlast, Nat.add_sub_cancel] at hp
  cases hb : back_trace s.way (s.y_end - 1) D (y_to, x_to, D + 1) [(x_to, y_to, 1)] with
  | none => rw [hb] at hp; simp at hp
  | some res =>
    rw [hb] at hp
    injection hp with hp
    intro r hr
    rw [← hp] at hr
    rcases List.mem_append.1 hr with h1 | h1
    · right
      rcases back_trace_rows _ _ _ _ _ _ hb r h1 with h2 | ⟨j, hj0, hjy, h2⟩
      · simp only [List.mem_singleton] at h2
        exact hrow s.y_end (by omega) (le_refl _) r (by rw [hlast, h2])
      · exact hrow j hj0 (by omega) r h2
    · left
      simpa using h1

/-! ## Manhattan distance along a chain -/

theorem chain_manhattan : ∀ (l : matrix_3xn_t) (a b : row_t), List.Chain step4 a l →
    (a :: l).getLast? = some b →
    (a.1 - b.1) + (b.1 - a.1) + ((a.2.1 - b.2.1) + (b.2.1 - a.2.1)) ≤ l.length := by
  intro l
  induction l with
  | nil =>
    intro a b _ hl
    simp only [List.getLast?_singleton, Option.some.injEq] at hl
    subst hl
    simp
  | cons a' l ih =>
    intro a b hch hl
    rw [List.chain_cons] at hch
    rw [List.getLast?_cons_cons] at hl
    have := ih a' b hch.2 hl
    have hadj := hch.1
    unfold step4 adjacent4 at hadj
    simp only [] at hadj
    simp only [List.length_cons]
    omega

/-- A chain of 4-adjacent rows that ends on `(0, 0, 1)`, is as short as the Manhattan distance
allows and starts at `x ≥ 2`, `y ≤ 4` has a row with `x = 2` and `y ≤ 4`. -/
theorem tight_chain_crossing : ∀ (l : matrix_3xn_t) (a : row_t), List.Chain step4 a l →
    (a :: l).getLast? = some (0, 0, 1) → a.1 + a.2.1 = l.length → 2 ≤ a.1 → a.2.1 ≤ 4 →
    ∃ r ∈ a :: l, r.1 = 2 ∧ r.2.1 ≤ 4 := by
  intro l
  induction l with
  | nil =>
    intro a _ hl _ h2 _
    simp only [List.getLast?_singleton, Option.some.injEq] at hl
    rw [hl] at h2
    simp at h2
  | cons a' l ih =>
    intro a hch hl hlen h2 h4
    by_cases ha : a.1 = 2
    · exact ⟨a, List.mem_cons_self _ _, ha, h4⟩
    · rw [List.chain_cons] at hch
      rw [List.getLast?_cons_cons] at hl
      have hm := chain_manhattan l a' (0, 0, 1) hch.2 hl
      simp only [Nat.sub_zero, Nat.zero_sub, Nat.add_zero] at hm
      have hadj := hch.1
      unfold step4 adjacent4 at hadj
      simp only [] at hadj
      simp only [List.length_cons] at hlen
      obtain ⟨r, hr, h5⟩ := ih a' hch.2 hl (by omega) (by omega) (by omega)
      exact ⟨r, List.mem_cons_of_mem _ hr, h5⟩

theorem hit_state_ne {map : matrix_view T} {blank : T} {x_from y_from x_to y_to D : Nat}
    {s : wave_state} (h : hit_state map blank (y_from, x_from, 0) x_to y_to D s) :
    ¬ (y_from = y_to ∧ x_from = x_to) := by
  obtain ⟨w, hw, _, hoff, _, _, hne⟩ := h.shape
  obtain ⟨t, ht⟩ := built_head h.bt
  have hseed : (y_from, x_from, 0) ∈ w := by
    cases w with
    | nil => exact absurd rfl hne
    | cons a w' =>
      rw [ht] at hw
      simp only [List.cons_append, List.cons.injEq] at hw
      rw [← hw.1]
      exact List.mem_cons_self _ _
  exact hoff _ hseed

/-- Length of the path between two distinct blank in-bounds cells joined by a chain `q` of
in-bounds blank cells with coordinates below `2^31` that is as short as the Manhattan distance
allows. -/
theorem lee_neumann_manhattan (map : matrix_view T) (blank : T) (x_from y_from x_to y_to : Nat)
    (hne : ¬ (y_from = y_to ∧ x_from = x_to)) (q : List (Nat × Nat))
    (hhead : q.head? = some (y_from, x_from)) (hlast : q.getLast? = some (y_to, x_to))
    (hcells : ∀ c ∈ q, c.1 < map.size ∧ c.2 < map.csize ∧ map.cell c.1 c.2 = blank)
    (hsm : ∀ c ∈ q, c.1 < 2147483648 ∧ c.2 < 2147483648)
    (hadj : List.Chain' adjacent4 q)
    (hlen : q.length = (x_to - x_from) + (x_from - x_to) + ((y_to - y_from) + (y_from - y_to))
      + 1) :
    ∃ fuel p, (∀ fuel', fuel ≤ fuel' →
        lee_neumann fuel' map x_from y_from x_to y_to blank = some (outcome.path p)) ∧
      p.length = q.length ∧
      ∃ s D extra, hit_state map blank (y_from, x_from, 0) x_to y_to D s ∧
        reconstruct s.way s.y_end x_from y_from x_to y_to = outcome.path p ∧
        p = (x_to, y_to, 1) :: (extra ++ [(x_from, y_from, 1)]) ∧
        List.Chain step4 (x_to, y_to, 1) (extra ++ [(x_from, y_from, 1)]) := by
  have hfrom : y_from < map.size ∧ x_from < map.csize ∧ map.cell y_from x_from = blank := by
    cases q with
    | nil => simp at hhead
    | cons a q' =>
      simp only [List.head?_cons, Option.some.injEq] at hhead
      have := hcells a (List.mem_cons_self _ _)
      rw [hhead] at this
      exact this
  have hto : y_to < map.size ∧ x_to < map.csize ∧ map.cell y_to x_to = blank :=
    hcells (y_to, x_to) (List.mem_of_mem_getLast? hlast)
  have hg : ∀ c ∈ q.tail, wave_guard map blank (c.1 : Int) (c.2 : Int) = true :=
    fun c hc => wave_guard_of_in_grid (hcells c (List.mem_of_mem_tail hc))
  have hsm' : ∀ c ∈ q.tail, c.1 < 2147483648 ∧ c.2 < 2147483648 :=
    fun c hc => hsm c (List.mem_of_mem_tail hc)
  have hsmf : y_from < 2147483648 ∧ x_from < 2147483648 := by
    cases q with
    | nil => simp at hhead
    | cons a q' =>
      simp only [List.head?_cons, Option.some.injEq] at hhead
      have := hsm a (List.mem_cons_self _ _)
      rw [hhead] at this
      exact this
  obtain ⟨fuel, p, hp⟩ := lee_neumann_returns hfrom hto hne q hhead hlast hg hsm' hadj
  obtain ⟨s, D, _, hs, hrec⟩ := lee_neumann_path (hp fuel (le_refl _))
  obtain ⟨extra, he, hel, _, hch0⟩ := reconstruct_hit hs
  have hch := hch0 hsmf.1 hsmf.2
  have hpe : p = (x_to, y_to, 1) :: (extra ++ [(x_from, y_from, 1)]) := by
    rw [he] at hrec
    injection hrec with hrec
    rw [← hrec]; rfl
  have hch' : List.Chain step4 (x_to, y_to, 1) (extra ++ [(x_from, y_from, 1)]) := hch
  have hup := hit_state_lower_bound hs q hhead hlast hg hsm' hadj
  have hlow := chain_manhattan _ (x_to, y_to, 1) (x_from, y_from, 1) hch'
    (by rw [← List.cons_append, List.getLast?_concat])
  simp only [List.length_append, List.length_cons, List.length_nil] at hlow
  refine ⟨fuel, p, hp, ?_, s, D, extra, hs, hrec, hpe, hch'⟩
  rw [hpe]
  simp only [List.length_append, List.length_cons, List.length_nil]
  omega

/-! ## Only the comparison with `blank` matters -/

theorem wave_guard_congr {map map2 : matrix_view T} {blank : T}
    (hs : map.size = map2.size) (hc : map.csize = map2.csize)
    (hcell : ∀ y x, map.cell y x = blank ↔ map2.cell y x = blank) (iy ix : Int) :
    wave_guard map blank iy ix = wave_guard map2 blank iy ix := by
  unfold wave_guard
  rw [hs, hc, decide_eq_decide.2 (hcell iy.toNat ix.toNat)]

theorem wave_loop_congr {map map2 : matrix_view T} {blank : T}
    (hs : map.size = map2.size) (hc : map.csize = map2.csize)
    (hcell : ∀ y x, map.cell y x = blank ↔ map2.cell y x = blank)
    (x_to y_to y x d : Nat) :
    ∀ (k i : Nat) (way : matrix_3xn_t) (stop : Bool),
      wave_loop map blank x_to y_to y x d k i way stop =
        wave_loop map2 blank x_to y_to y x d k i way stop := by
  intro k
  induction k with
  | zero => intro i way stop; rfl
  | succ k ih =>
    intro i way stop
    rw [wave_loop, wave_loop]
    simp only [wave_guard_congr hs hc hcell, ih]

theorem round_loop_congr {map map2 : matrix_view T} {blank : T}
    (hs : map.size = map2.size) (hc : map.csize = map2.csize)
    (hcell : ∀ y x, map.cell y x = blank ↔ map2.cell y x = blank) (x_to y_to d : Nat) :
    ∀ (fuel i : Nat) (s : wave_state),
      round_loop map blank x_to y_to d fuel i s = round_loop map2 blank x_to y_to d fuel i s := by
  intro fuel
  induction fuel with
  | zero => intro i s; rfl
  | succ fuel ih =>
    intro i s
    have hb : round_body map blank x_to y_to d i s = round_body map2 blank x_to y_to d i s := by
      unfold round_body wave_propagation
      simp only [wave_loop_congr hs hc hcell]
    rw [round_loop, round_loop, hb]
    simp only [ih]

theorem expansion_congr {map map2 : matrix_view T} {blank : T}
    (hs : map.size = map2.size) (hc : map.csize = map2.csize)
    (hcell : ∀ y x, map.cell y x = blank ↔ map2.cell y x = blank) (x_to y_to inner : Nat) :
    ∀ (fuel d : Nat) (s : wave_state),
      expansion map blank x_to y_to inner fuel d s =
        expansion map2 blank x_to y_to inner fuel d s := by
  intro fuel
  induction fuel with
  | zero => intro d s; rfl
  | succ fuel ih =>
    intro d s
    rw [expansion, expansion, round_loop_congr hs hc hcell]
    simp only [ih]

/-- Two views of the same shape whose cells agree on being blank give the same result. -/
theorem lee_neumann_congr (map map2 : matrix_view T) (blank : T)
    (hs : map.size = map2.size) (hc : map.csize = map2.csize)
    (hcell : ∀ y x, map.cell y x = blank ↔ map2.cell y x = blank)
    (fuel x_from y_from x_to y_to : Nat) :
    lee_neumann fuel map x_from y_from x_to y_to blank =
      lee_neumann fuel map2 x_from y_from x_to y_to blank := by
  unfold lee_neumann expand
  simp only [ne_eq, hs, hc, hcell y_from x_from, hcell y_to x_to,
    expansion_congr hs hc hcell]

/-- For the result it does not matter which non-blank value is read behind a row-major
buffer. -/
theorem row_major_past_congr (size csize : Nat) (data : List Nat) (past : Nat)
    (hp : past ≠ 0) (fuel x_from y_from x_to y_to : Nat) :
    lee_neumann fuel (matrix_view.row_major size csize data past) x_from y_from x_to y_to 0 =
      lee_neumann fuel (matrix_view.row_major size csize data 1) x_from y_from x_to y_to 0 := by
  apply lee_neumann_congr (matrix_view.row_major size csize data past)
    (matrix_view.row_major size csize data 1) 0 rfl rfl
  intro y x
  simp only [matrix_view.row_major]
  by_cases h : y * csize + x < data.length
  · rw [List.getD_eq_getElem _ _ h, List.getD_eq_getElem _ _ h]
  · rw [List.getD_eq_default _ _ (by omega), List.getD_eq_default _ _ (by omega)]
    simp [hp]

/-! ## Claims -/

/-- C5: `lee_neumann` raises the out-of-range fault exactly when the origin or the destination
lies outside the grid, and in that case it does not return the empty optional. -/
theorem lee_neumann_out_of_range_iff (fuel : Nat) (map : matrix_view T)
    (x_from y_from x_to y_to : Nat) (blank : T) :
    (lee_neumann fuel map x_from y_from x_to y_to blank = some outcome.out_of_range ↔
      (map.size ≤ y_from ∨ map.csize ≤ x_from ∨ map.size ≤ y_to ∨ map.csize ≤ x_to)) ∧
    ((map.size ≤ y_from ∨ map.csize ≤ x_from ∨ map.size ≤ y_to ∨ map.csize ≤ x_to) →
      lee_neumann fuel map x_from y_from x_to y_to blank ≠ some outcome.nullopt) := by
  constructor
  · constructor
    · intro h
      by_contra hc
      unfold lee_neumann at h
      rw [if_neg hc] at h
      split at h
      · simp at h
      · split at h
        · simp at h
        · split at h
          · simp at h
          · unfold reconstruct at h
            simp only [] at h
            split at h <;> simp at h
    · intro h
      unfold lee_neumann
      rw [if_pos h]
  · intro h
    unfold lee_neumann
    rw [if_pos h]
    simp

/-- C6: with in-bounds endpoints, if the origin cell or the destination cell is not the blank
marker, `lee_neumann` returns the empty optional, whatever the rest of the grid is. -/
theorem lee_neumann_endpoint_not_blank (fuel : Nat) (map : matrix_view T)
    (x_from y_from x_to y_to : Nat) (blank : T)
    (hfrom : y_from < map.size ∧ x_from < map.csize)
    (hto : y_to < map.size ∧ x_to < map.csize)
    (hnb : map.cell y_from x_from ≠ blank ∨ map.cell y_to x_to ≠ blank) :
    lee_neumann fuel map x_from y_from x_to y_to blank = some outcome.nullopt := by
  unfold lee_neumann
  rw [if_neg (by omega), if_pos hnb]

/-- C7: on every input on which `lee_neumann` returns a path, the first row of the path is
`(x_to, y_to, 1)` and the last row is `(x_from, y_from, 1)`. -/
theorem lee_neumann_destination_first (fuel : Nat) (map : matrix_view T)
    (x_from y_from x_to y_to : Nat) (blank : T) (p : matrix_3xn_t)
    (h : lee_neumann fuel map x_from y_from x_to y_to blank = some (outcome.path p)) :
    p.head? = some (x_to, y_to, 1) ∧ p.getLast? = some (x_from, y_from, 1) := by
  obtain ⟨s, D, _, hs, hrec⟩ := lee_neumann_path h
  obtain ⟨extra, he, _, _⟩ := reconstruct_hit hs
  rw [he] at hrec
  injection hrec with hrec
  rw [← hrec]
  refine ⟨rfl, ?_⟩
  rw [List.getLast?_concat]

/-- C9: on every 5 x 5 grid with blank 0 whose cells are 1 at column 2 of rows 0..3 and 0
elsewhere, `lee_neumann` from (row 0, col 0) to (row 4, col 4) returns a path of exactly 9 rows
that contains the row `(2, 4, 1)` of the gap cell (row 4, col 2). -/
theorem lee_neumann_wall_scenario (map : matrix_view Nat) (hsize : map.size = 5)
    (hcsize : map.csize = 5)
    (hcells : ∀ y, y < 5 → ∀ x, x < 5 → map.cell y x = if x = 2 ∧ y < 4 then 1 else 0) :
    ∃ fuel p, (∀ fuel', fuel ≤ fuel' →
        lee_neumann fuel' map 0 0 4 4 0 = some (outcome.path p)) ∧
      p.length = 9 ∧ (2, 4, 1) ∈ p := by
  obtain ⟨fuel, p, hp, hlen, s, D, extra, hs, hrec, hpe, hch⟩ :=
    lee_neumann_manhattan map 0 0 0 4 4 (by omega)
      [(0, 0), (1, 0), (2, 0), (3, 0), (4, 0), (4, 1), (4, 2), (4, 3), (4, 4)] rfl rfl
      (by
        intro a ha
        simp only [List.mem_cons, List.mem_singleton, List.not_mem_nil, or_false] at ha
        rw [hsize, hcsize]
        rcases ha with h | h | h | h | h | h | h | h | h <;> subst h <;>
          exact ⟨by decide, by decide, by rw [hcells _ (by decide) _ (by decide)]; decide⟩)
      (by
        intro a ha
        simp only [List.mem_cons, List.mem_singleton, List.not_mem_nil, or_false] at ha
        rcases ha with h | h | h | h | h | h | h | h | h <;> subst h <;>
          exact ⟨by decide, by decide⟩)
      (by simp [adjacent4]) rfl
  have hl9 : p.length = 9 := hlen
  refine ⟨fuel, p, hp, hl9, ?_⟩
  have hel : (extra ++ [((0 : Nat), (0 : Nat), (1 : Nat))]).length = 8 := by
    rw [hpe] at hl9
    simpa using hl9
  obtain ⟨r, hr, hr1, hr2⟩ := tight_chain_crossing _ (4, 4, 1) hch
    (by rw [← List.cons_append, List.getLast?_concat]) (by rw [hel]; rfl) (by decide)
    (by decide)
  rw [← hpe] at hr
  rcases reconstruct_rows hs hrec r hr with h | ⟨h1, hg, _⟩
  · rw [h] at hr1
    simp at hr1
  · unfold wave_guard at hg
    simp only [Bool.and_eq_true, decide_eq_true_eq, Int.toNat_natCast] at hg
    have hcell := hg.2
    rw [hcells r.2.1 (by omega) r.1 (by omega)] at hcell
    have hy : r.2.1 = 4 := by
      by_contra hc
      rw [if_pos ⟨hr1, by omega⟩] at hcell
      simp at hcell
    have : r = (2, 4, 1) := by
      rcases r with ⟨a, b, c⟩
      simp only [] at hr1 hy h1
      rw [hr1, hy, h1]
    rw [← this]
    exact hr

/-- C2, failing input: in `detour_grid` the blank origin (row 0, col 1) has no blank in-bounds
4-neighbour, so the blank destination (row 2, col 1) is not reachable; `lee_neumann`
nevertheless returns a path, through the column-2 cells that lie outside the 2-column grid,
whatever value lies behind the buffer. -/
theorem detour_grid_path_outside_grid :
    (∀ past, lee_neumann 30 (detour_grid past) 1 0 1 2 0 =
      some (outcome.path [(1, 2, 1), (2, 2, 1), (2, 1, 1), (2, 0, 1), (1, 0, 1)])) ∧
    ∀ past, ¬ ∃ q : List (Nat × Nat), q.head? = some (0, 1) ∧ q.getLast? = some (2, 1) ∧
      (∀ c ∈ q, c.1 < (detour_grid past).size ∧ c.2 < (detour_grid past).csize ∧
        (detour_grid past).cell c.1 c.2 = 0) ∧ List.Chain' adjacent4 q := by
  refine ⟨?_, ?_⟩
  · intro past
    by_cases hp : past = 0
    · subst hp
      decide
    · unfold detour_grid
      rw [row_major_past_congr _ _ _ past hp]
      decide
  · rintro past ⟨q, hhead, hlast, hcells, hadj⟩
    cases q with
    | nil => simp at hhead
    | cons a q' =>
      simp only [List.head?_cons, Option.some.injEq] at hhead
      subst hhead
      cases q' with
      | nil => simp at hlast
      | cons b q2 =>
        rw [List.chain'_cons] at hadj
        have hb := hcells b (by simp)
        have hab := hadj.1
        obtain ⟨b1, b2⟩ := b
        unfold adjacent4 at hab
        simp only [detour_grid, matrix_view.row_major] at hb hab
        obtain ⟨h1, h2, h3⟩ := hb
        have hb1 : b1 = 0 ∨ b1 = 1 := by omega
        have hb2 : b2 = 0 ∨ b2 = 1 := by omega
        rcases hb1 with rfl | rfl <;> rcases hb2 with rfl | rfl <;> simp at h3 hab

/-- C10, failing input: in `enclosed_grid` the destination (row 2, col 2) is blank and each of
its in-bounds 4-neighbours is non-blank; `lee_neumann` from (row 0, col 2) nevertheless returns
a path, through the column-3 cells that lie outside the 3-column grid, whatever value lies
behind the buffer. -/
theorem enclosed_grid_path_outside_grid :
    (∀ past, lee_neumann 30 (enclosed_grid past) 2 0 2 2 0 =
      some (outcome.path [(2, 2, 1), (3, 2, 1), (3, 1, 1), (3, 0, 1), (2, 0, 1)])) ∧
    ∀ past, (enclosed_grid past).cell 2 2 = 0 ∧
      ∀ y, y < 5 → ∀ x, x < 3 → adjacent4 (y, x) (2, 2) → (enclosed_grid past).cell y x ≠ 0 := by
  refine ⟨?_, ?_⟩
  · intro past
    by_cases hp : past = 0
    · subst hp
      decide
    · unfold enclosed_grid
      rw [row_major_past_congr _ _ _ past hp]
      decide
  · intro past
    refine ⟨rfl, ?_⟩
    intro y hy x hx hadj
    unfold adjacent4 at hadj
    simp only [enclosed_grid, matrix_view.row_major]
    interval_cases y <;> interval_cases x <;> simp at hadj ⊢

/-- Instance of C6 on `wall_grid`. -/
theorem lee_neumann_endpoint_not_blank_witness :
    wall_grid.cell 0 2 ≠ 0 ∧ lee_neumann 30 wall_grid 2 0 4 4 0 = some outcome.nullopt :=
  ⟨by decide,
    lee_neumann_endpoint_not_blank 30 wall_grid 2 0 4 4 0 (by decide) (by decide)
      (Or.inl (by decide))⟩

/-- Instance of C7 on `wall_grid`. -/
theorem lee_neumann_destination_first_witness :
    lee_neumann 30 wall_grid 0 0 4 4 0 = some (outcome.path wall_path) ∧
    wall_path.head? = some (4, 4, 1) ∧ wall_path.getLast? = some (0, 0, 1) :=
  ⟨by decide, lee_neumann_destination_first 30 wall_grid 0 0 4 4 0 wall_path (by decide)⟩

/-- Instance of C9 on `wall_grid`. -/
theorem lee_neumann_wall_scenario_witness :
    ∃ fuel p, (∀ fuel', fuel ≤ fuel' →
        lee_neumann fuel' wall_grid 0 0 4 4 0 = some (outcome.path p)) ∧
      p.length = 9 ∧ (2, 4, 1) ∈ p :=
  lee_neumann_wall_scenario wall_grid rfl rfl (by decide)

/-- X1: between distinct endpoints, if the destination is reachable from the origin by a
sequence of 4-adjacent, in-bounds, blank cells with coordinates below `2^31`, `lee_neumann`
returns a path, for every fuel from some amount on. -/
theorem lee_neumann_reachable_returns (map : matrix_view T) (blank : T)
    (x_from y_from x_to y_to : Nat) (hne : ¬ (y_from = y_to ∧ x_from = x_to))
    (q : List (Nat × Nat))
    (hhead : q.head? = some (y_from, x_from)) (hlast : q.getLast? = some (y_to, x_to))
    (hcells : ∀ c ∈ q, c.1 < map.size ∧ c.2 < map.csize ∧ map.cell c.1 c.2 = blank)
    (hsm : ∀ c ∈ q, c.1 < 2147483648 ∧ c.2 < 2147483648)
    (hadj : List.Chain' adjacent4 q) :
    ∃ fuel p, ∀ fuel', fuel ≤ fuel' →
      lee_neumann fuel' map x_from y_from x_to y_to blank = some (outcome.path p) := by
  have hfrom : y_from < map.size ∧ x_from < map.csize ∧ map.cell y_from x_from = blank := by
    cases q with
    | nil => simp at hhead
    | cons a q2 =>
      simp only [List.head?_cons, Option.some.injEq] at hhead
      have := hcells a (List.mem_cons_self _ _)
      rw [hhead] at this
      exact this
  exact lee_neumann_returns hfrom (hcells (y_to, x_to) (List.mem_of_mem_getLast? hlast)) hne q
    hhead hlast (fun c hc => wave_guard_of_in_grid (hcells c (List.mem_of_mem_tail hc)))
    (fun c hc => hsm c (List.mem_of_mem_tail hc)) hadj

/-- Instance of X1 on `wall_grid`. -/
theorem lee_neumann_reachable_returns_witness :
    ∃ fuel p, ∀ fuel', fuel ≤ fuel' →
      lee_neumann fuel' wall_grid 0 0 4 4 0 = some (outcome.path p) :=
  lee_neumann_reachable_returns wall_grid 0 0 0 4 4 (by decide)
    [(0, 0), (1, 0), (2, 0), (3, 0), (4, 0), (4, 1), (4, 2), (4, 3), (4, 4)] rfl rfl
    (by decide) (by decide) (by simp [adjacent4])

/-! ## Distinct coordinates -/

theorem insert_if_distinct (way : matrix_3xn_t) (iy ix : Int) (d : Nat) (hy : 0 ≤ iy)
    (hx : 0 ≤ ix) (h : distinct_cells way) :
    distinct_cells (insert_if way (iy.toNat, ix.toNat, d)
      (fun v => !(decide ((v.1 : Int) = iy) && decide ((v.2.1 : Int) = ix)))).2 := by
  cases hins : (insert_if way (iy.toNat, ix.toNat, d)
      (fun v => !(decide ((v.1 : Int) = iy) && decide ((v.2.1 : Int) = ix)))).1 with
  | false => rw [(insert_if_false _ _ _ hins).2]; exact h
  | true =>
    obtain ⟨hall, hway⟩ := insert_if_true _ _ _ hins
    rw [hway]
    unfold distinct_cells
    rw [List.pairwise_append]
    refine ⟨h, List.pairwise_singleton _ _, ?_⟩
    intro a ha b hb hc
    simp only [List.mem_singleton] at hb
    subst hb
    have := hall a ha
    simp only [Bool.not_eq_true', Bool.and_eq_false_imp, decide_eq_true_eq,
      decide_eq_false_iff_not] at this
    apply this
    · rw [hc.1]; exact Int.toNat_of_nonneg hy
    · rw [hc.2]; exact Int.toNat_of_nonneg hx

theorem wave_loop_distinct (map : matrix_view T) (blank : T) (x_to y_to y x d : Nat) :
    ∀ (k i : Nat) (way : matrix_3xn_t) (stop : Bool), distinct_cells way →
      distinct_cells (wave_loop map blank x_to y_to y x d k i way stop).1 := by
  intro k
  induction k with
  | zero => intro i way stop h; exact h
  | succ k ih =>
    intro i way stop h
    rw [wave_loop]
    simp only []
    by_cases hg : wave_guard map blank (to_int ((y : Int) + dy.getD i 0))
        (to_int ((x : Int) + dx.getD i 0)) = true
    · obtain ⟨hy0, hx0⟩ := wave_guard_nonneg hg
      have hd := insert_if_distinct way _ _ (d + 1) hy0 hx0 h
      simp only [hg, if_true]
      split
      · split
        · exact hd
        · exact ih _ _ _ hd
      · exact ih _ _ _ hd
    · simp only [hg, Bool.false_eq_true, if_false]
      exact ih _ _ _ h

theorem round_body_distinct (map : matrix_view T) (blank : T) (x_to y_to d i : Nat)
    (s : wave_state) (h : distinct_cells s.way) :
    distinct_cells (round_body map blank x_to y_to d i s).way := by
  unfold round_body
  simp only []
  split
  · exact wave_loop_distinct map blank x_to y_to _ _ d 4 0 s.way s.stop h
  · exact h

theorem round_loop_distinct (map : matrix_view T) (blank : T) (x_to y_to d : Nat) :
    ∀ (fuel i : Nat) (s s2 : wave_state), distinct_cells s.way →
      round_loop map blank x_to y_to d fuel i s = some s2 → distinct_cells s2.way := by
  intro fuel
  induction fuel with
  | zero => intro i s s2 _ h; simp [round_loop] at h
  | succ fuel ih =>
    intro i s s2 hd h
    rw [round_loop] at h
    have hb := round_body_distinct map blank x_to y_to d i s hd
    split at h
    · simp only [] at h
      split at h
      · injection h with h
        rw [← h]; exact hb
      · exact ih _ _ s2 hb h
    · injection h with h
      rw [← h]; exact hd

theorem expansion_distinct (map : matrix_view T) (blank : T) (x_to y_to inner : Nat) :
    ∀ (fuel d : Nat) (s s2 : wave_state), distinct_cells s.way →
      expansion map blank x_to y_to inner fuel d s = some s2 → distinct_cells s2.way := by
  intro fuel
  induction fuel with
  | zero => intro d s s2 _ h; simp [expansion] at h
  | succ fuel ih =>
    intro d s s2 hd h
    rw [expansion] at h
    cases hr : round_loop map blank x_to y_to d inner 0 { s with stop := true } with
    | none => simp [hr] at h
    | some s1 =>
      simp only [hr] at h
      have h1 := round_loop_distinct map blank x_to y_to d inner 0
        { s with stop := true } s1 hd hr
      split at h
      · exact ih _ s1 s2 h1 h
      · injection h with h
        rw [← h]; exact h1

/-- C11: the visit record never holds two rows with the same `(row, col)`: the seed record has
none, every append made through `insert_if` with the predicate of line 61 keeps it so, and
with it every probe loop of `wave_propagation`, every inner loop, every run of the outer loop
and the record the expansion ends with. -/
theorem visit_record_distinct_cells (map : matrix_view T) (blank : T)
    (x_from y_from x_to y_to : Nat) :
    distinct_cells [(y_from, x_from, 0)] ∧
    (∀ (way : matrix_3xn_t) (iy ix : Int) (d : Nat), 0 ≤ iy → 0 ≤ ix → distinct_cells way →
      distinct_cells (insert_if way (iy.toNat, ix.toNat, d + 1)
        (fun v => !(decide ((v.1 : Int) = iy) && decide ((v.2.1 : Int) = ix)))).2) ∧
    (∀ (y x d k i : Nat) (way : matrix_3xn_t) (stop : Bool), distinct_cells way →
      distinct_cells (wave_loop map blank x_to y_to y x d k i way stop).1) ∧
    (∀ (d fuel i : Nat) (s s2 : wave_state), distinct_cells s.way →
      round_loop map blank x_to y_to d fuel i s = some s2 → distinct_cells s2.way) ∧
    (∀ (inner fuel d : Nat) (s s2 : wave_state), distinct_cells s.way →
      expansion map blank x_to y_to inner fuel d s = some s2 → distinct_cells s2.way) ∧
    (∀ (fuel : Nat) (s : wave_state),
      expand fuel map x_from y_from x_to y_to blank = some s → distinct_cells s.way) := by
  have h0 : distinct_cells [(y_from, x_from, 0)] := List.pairwise_singleton _ _
  refine ⟨h0, ?_, ?_, ?_, ?_, ?_⟩
  · intro way iy ix d hy hx h
    exact insert_if_distinct way iy ix (d + 1) hy hx h
  · intro y x d k i way stop h
    exact wave_loop_distinct map blank x_to y_to y x d k i way stop h
  · intro d fuel i s s2 h hr
    exact round_loop_distinct map blank x_to y_to d fuel i s s2 h hr
  · intro inner fuel d s s2 h hr
    exact expansion_distinct map blank x_to y_to inner fuel d s s2 h hr
  · intro fuel s h
    unfold expand at h
    exact expansion_distinct map blank x_to y_to fuel fuel 0 _ s h0 h

/-- C12: `insert_if(m, v, c)` returns true exactly when `c` holds for every element already in
`m`; when it returns true the matrix is `m` with `v` appended at the end, when it returns false
the matrix is `m` unchanged. -/
theorem insert_if_contract {α : Type} (m : List α) (v : α) (c : α → Bool) :
    ((insert_if m v c).1 = true ↔ ∀ a ∈ m, c a = true) ∧
    ((insert_if m v c).1 = true → (insert_if m v c).2 = m ++ [v]) ∧
    ((insert_if m v c).1 = false → (insert_if m v c).2 = m) := by
  refine ⟨⟨fun h => (insert_if_true m v c h).1, fun h => ?_⟩,
    fun h => (insert_if_true m v c h).2, fun h => (insert_if_false m v c h).2⟩
  unfold insert_if
  rw [if_pos ((insert_if_loop_iff c m).2 h)]

/-! ## The column scans `min` and `max` -/

theorem max_loop_ge {T : Type} [LinearOrder T] (data : List T) (size : Nat) :
    ∀ (fuel pos : Nat) (acc : T), acc ≤ max_loop data size fuel pos acc := by
  intro fuel
  induction fuel with
  | zero => intro pos acc; exact le_refl _
  | succ fuel ih =>
    intro pos acc
    rw [max_loop]
    cases data[pos]? with
    | none => exact le_refl _
    | some v =>
      simp only []
      refine le_trans ?_ (ih _ _)
      split
      · exact le_of_lt (by assumption)
      · exact le_refl _

theorem max_loop_fuel {T : Type} [LinearOrder T] (data : List T) (size : Nat) (hs : 0 < size) :
    ∀ (fuel pos : Nat) (acc : T) (extra : Nat), data.length ≤ pos + fuel →
      max_loop data size (fuel + extra) pos acc = max_loop data size fuel pos acc := by
  intro fuel
  induction fuel with
  | zero =>
    intro pos acc extra h
    have hn : data[pos]? = none := List.getElem?_eq_none (by omega)
    cases extra with
    | zero => rfl
    | succ extra =>
      simp only [Nat.zero_add, max_loop, hn]
  | succ fuel ih =>
    intro pos acc extra h
    rw [Nat.add_right_comm, max_loop, max_loop]
    cases data[pos]? with
    | none => rfl
    | some v => exact ih _ _ _ (by omega)

/-- C13, failing input: on the matrix with rows `5 1` and `2 3`, `max` for column 1 returns 5,
which does not occur in column 1, whose elements are 1 and 3; `min`, which reads its start
value after moving to the column, returns 1.  In general what `max` returns is never below
the first element of the matrix, whatever the column. -/
theorem column_max_starts_at_first_element :
    column_max skew_matrix 1 = Except.ok 5 ∧ column skew_matrix 1 = [1, 3] ∧
    column_min skew_matrix 1 = Except.ok 1 ∧
    ∀ (m : matrix Nat) (j_pos a v : Nat), m.data.head? = some a →
      column_max m j_pos = Except.ok v → a ≤ v := by
  refine ⟨rfl, by decide, rfl, ?_⟩
  intro m j_pos a v ha hv
  unfold column_max at hv
  cases hd : m.data with
  | nil => rw [hd] at ha; simp at ha
  | cons b rest =>
    rw [hd] at ha hv
    simp only [List.head?_cons, Option.some.injEq] at ha
    subst ha
    simp only [] at hv
    split at hv
    · simp at hv
    · injection hv with hv
      rw [← hv]
      exact max_loop_ge _ _ _ _ _

/-! ## `LU` -/

theorem l_column_spec (U : qmatrix) (i : Nat) :
    ∀ (n j : Nat) (L L2 : qmatrix), l_column U i n j L = some L2 →
      (0 < n → U i i ≠ 0) ∧
      ∀ r c, L2 r c = if c = i ∧ j ≤ r ∧ r < j + n then U r i / U i i else L r c := by
  intro n
  induction n with
  | zero =>
    intro j L L2 h
    simp only [l_column] at h
    injection h with h
    subst h
    refine ⟨fun h0 => absurd h0 (by omega), fun r c => ?_⟩
    rw [if_neg (by omega)]
  | succ n ih =>
    intro j L L2 h
    rw [l_column] at h
    by_cases hz : U i i = 0
    · rw [if_pos hz] at h
      exact absurd h (by simp)
    · rw [if_neg hz] at h
      obtain ⟨_, h2⟩ := ih (j + 1) _ L2 h
      refine ⟨fun _ => hz, fun r c => ?_⟩
      rw [h2 r c]
      unfold set_entry
      by_cases hc : c = i
      · by_cases hr : r = j
        · subst hc; subst hr
          rw [if_neg (by omega), if_pos ⟨rfl, rfl⟩, if_pos ⟨rfl, le_refl _, by omega⟩]
        · by_cases hr2 : j + 1 ≤ r ∧ r < j + 1 + n
          · rw [if_pos ⟨hc, hr2⟩, if_pos ⟨hc, by omega, by omega⟩]
          · rw [if_neg (fun hh => hr2 hh.2), if_neg (fun hh => hr hh.1),
              if_neg (fun hh => hr2 ⟨by omega, by omega⟩)]
      · rw [if_neg (fun hh => hc hh.1), if_neg (fun hh => hc hh.2),
          if_neg (fun hh => hc hh.1)]

theorem l_pass_spec (U : qmatrix) (size : Nat) :
    ∀ (n i : Nat) (L L2 : qmatrix), i + n = size → l_pass U size n i L = some L2 →
      (∀ c, i ≤ c → c < size → U c c ≠ 0) ∧
      ∀ r c, L2 r c = if i ≤ c ∧ c ≤ r ∧ r < size then U r c / U c c else L r c := by
  intro n
  induction n with
  | zero =>
    intro i L L2 hi h
    simp only [l_pass] at h
    injection h with h
    subst h
    refine ⟨fun c h1 h2 => absurd h2 (by omega), fun r c => ?_⟩
    rw [if_neg (by omega)]
  | succ n ih =>
    intro i L L2 hi h
    rw [l_pass] at h
    cases hc : l_column U i (size - i) i L with
    | none => rw [hc] at h; exact absurd h (by simp)
    | some L1 =>
      rw [hc] at h
      simp only [] at h
      obtain ⟨h1, h2⟩ := l_column_spec U i (size - i) i L L1 hc
      obtain ⟨h3, h4⟩ := ih (i + 1) L1 L2 (by omega) h
      refine ⟨fun c hc1 hc2 => ?_, fun r c => ?_⟩
      · by_cases hci : c = i
        · subst hci; exact h1 (by omega)
        · exact h3 c (by omega) hc2
      · rw [h4 r c, h2 r c]
        by_cases hci : c = i
        · subst hci
          by_cases hr : c ≤ r ∧ r < size
          · rw [if_neg (by omega), if_pos ⟨rfl, by omega, by omega⟩,
              if_pos ⟨le_refl _, hr.1, hr.2⟩]
          · rw [if_neg (by omega), if_neg (by omega), if_neg (by omega)]
        · by_cases hr : i + 1 ≤ c ∧ c ≤ r ∧ r < size
          · rw [if_pos hr, if_pos ⟨by omega, hr.2.1, hr.2.2⟩]
          · rw [if_neg hr, if_neg (fun hh => hci hh.1), if_neg (by omega)]

theorem u_row_spec (L : qmatrix) (k i : Nat) :
    ∀ (n j : Nat) (U : qmatrix) (r c : Nat),
      u_row L k i n j U r c =
        if r = i ∧ j ≤ c ∧ c < j + n then U i c - L i (k - 1) * U (k - 1) c else U r c := by
  intro n
  induction n with
  | zero =>
    intro j U r c
    simp only [u_row]
    rw [if_neg (by omega)]
  | succ n ih =>
    intro j U r c
    rw [u_row, ih]
    unfold set_entry
    by_cases hc : c = j
    · subst hc
      rw [if_neg (by omega)]
      by_cases hr : r = i
      · subst hr
        rw [if_pos ⟨rfl, rfl⟩, if_pos ⟨rfl, le_refl _, by omega⟩]
      · rw [if_neg (fun hh => hr hh.1), if_neg (fun hh => hr hh.1)]
    · simp only [hc, and_false, if_false]
      by_cases hh : r = i ∧ j + 1 ≤ c ∧ c < j + 1 + n
      · rw [if_pos hh, if_pos ⟨hh.1, by omega, by omega⟩]
      · rw [if_neg hh, if_neg (by omega)]

theorem u_pass_spec (L : qmatrix) (k size : Nat) (hk : 1 ≤ k) :
    ∀ (n i : Nat) (U : qmatrix) (r c : Nat), k ≤ i →
      u_pass L k size n i U r c =
        if i ≤ r ∧ r < i + n ∧ k - 1 ≤ c ∧ c < size then
          U r c - L r (k - 1) * U (k - 1) c
        else U r c := by
  intro n
  induction n with
  | zero =>
    intro i U r c _
    simp only [u_pass]
    rw [if_neg (by omega)]
  | succ n ih =>
    intro i U r c hki
    rw [u_pass, ih _ _ _ _ (by omega)]
    have hrow : ∀ c2, u_row L k i (size - (k - 1)) (k - 1) U (k - 1) c2 = U (k - 1) c2 := by
      intro c2
      rw [u_row_spec, if_neg (by omega)]
    by_cases hr : r = i
    · subst hr
      rw [if_neg (by omega), u_row_spec]
      by_cases hc : k - 1 ≤ c ∧ c < size
      · rw [if_pos ⟨rfl, by omega, by omega⟩, if_pos ⟨le_refl _, by omega, hc.1, hc.2⟩]
      · rw [if_neg (by omega), if_neg (by omega)]
    · have hother : ∀ c2, u_row L k i (size - (k - 1)) (k - 1) U r c2 = U r c2 := by
        intro c2
        rw [u_row_spec, if_neg (fun hh => hr hh.1)]
      by_cases hc : i + 1 ≤ r ∧ r < i + 1 + n ∧ k - 1 ≤ c ∧ c < size
      · rw [if_pos hc, if_pos ⟨by omega, by omega, hc.2.2.1, hc.2.2.2⟩, hother, hrow]
      · rw [if_neg hc, if_neg (by omega), hother]

/-- One round of the loop of `LU`, seen from the entries of `U`. -/
theorem u_pass_round (L1 U : qmatrix) (e n : Nat) (he : e + 1 < n + 1) (r c : Nat) :
    u_pass L1 (e + 1) n (n - (e + 1)) (e + 1) U r c =
      if e + 1 ≤ r ∧ r < n ∧ e ≤ c ∧ c < n then U r c - L1 r e * U e c else U r c := by
  rw [u_pass_spec L1 (e + 1) n (by omega) _ _ _ _ _ (le_refl _)]
  simp only [Nat.add_sub_cancel]
  by_cases hc : e + 1 ≤ r ∧ r < n ∧ e ≤ c ∧ c < n
  · rw [if_pos hc, if_pos ⟨hc.1, by omega, hc.2.2.1, hc.2.2.2⟩]
  · rw [if_neg hc, if_neg (by omega)]

theorem lu_inv_step (n : Nat) (A : qmatrix) (e : Nat) (L U L1 : qmatrix) (he : e + 1 < n + 1)
    (hinv : lu_inv n A e L U) (hl : l_pass U n (n - e) e L = some L1) :
    lu_inv n A (e + 1) L1 (u_pass L1 (e + 1) n (n - (e + 1)) (e + 1) U) := by
  obtain ⟨hne, hL1⟩ := l_pass_spec U n (n - e) e L L1 (by omega) hl
  have hU1 := u_pass_round L1 U e n he
  generalize u_pass L1 (e + 1) n (n - (e + 1)) (e + 1) U = U1 at hU1
  have hUrow : ∀ m c, m ≤ e → U1 m c = U m c := by
    intro m c hm
    rw [hU1, if_neg (by omega)]
  have hUcol : ∀ r c, c < e → U1 r c = U r c := by
    intro r c hc
    rw [hU1, if_neg (by omega)]
  have hUnew : ∀ r c, e < r → r < n → e ≤ c → c < n →
      U1 r c = U r c - L1 r e * U e c := by
    intro r c h1 h2 h3 h4
    rw [hU1, if_pos ⟨by omega, h2, h3, h4⟩]
  have hLe : ∀ r, e ≤ r → r < n → L1 r e = U r e / U e e := by
    intro r h1 h2
    rw [hL1, if_pos ⟨le_refl _, h1, h2⟩]
  have hLm : ∀ r m, m < e → L1 r m = L r m := by
    intro r m hm
    rw [hL1, if_neg (by omega)]
  refine ⟨?_, ?_, ?_, ?_⟩
  · intro r c hr hc
    have hsum : (∑ m in Finset.range e, if m < r then L1 r m * U1 m c else 0) =
        ∑ m in Finset.range e, if m < r then L r m * U m c else 0 := by
      apply Finset.sum_congr rfl
      intro m hm
      have hme : m < e := Finset.mem_range.1 hm
      rw [hLm r m hme, hUrow m c (by omega)]
    rw [Finset.sum_range_succ, hsum, hUrow e c (le_refl _), hinv.sum r c hr hc]
    by_cases hre : e < r
    · rw [if_pos hre]
      by_cases hce : e ≤ c
      · rw [hUnew r c hre hr hce hc]
        ring
      · rw [hUcol r c (by omega), hinv.below e c (by omega) (by omega) (by omega)]
        ring
    · rw [if_neg hre, hUrow r c (by omega)]
      ring
  · intro r c hr hc hcr
    by_cases hce : c = e
    · subst hce
      rw [hUnew r c hcr hr (le_refl _) (by omega), hLe r (by omega) hr]
      have := hne c (le_refl _) (by omega)
      field_simp
    · rw [hUcol r c (by omega)]
      exact hinv.below r c hr (by omega) hcr
  · intro c hc
    rw [hL1]
    by_cases hec : e ≤ c
    · rw [if_pos ⟨hec, le_refl _, hc⟩]
      exact div_self (hne c hec hc)
    · rw [if_neg (by omega)]
      exact hinv.diag c hc
  · intro r c hrc
    rw [hL1, if_neg (by omega)]
    exact hinv.above r c hrc

theorem lu_loop_spec (n : Nat) (A : qmatrix) :
    ∀ (cnt e : Nat) (s s2 : qmatrix × qmatrix), e + 1 + cnt = n → lu_inv n A e s.1 s.2 →
      lu_loop n cnt (e + 1) s = some s2 → lu_inv n A (n - 1) s2.1 s2.2 := by
  intro cnt
  induction cnt with
  | zero =>
    intro e s s2 he hinv h
    simp only [lu_loop] at h
    injection h with h
    subst h
    have : n - 1 = e := by omega
    rw [this]
    exact hinv
  | succ cnt ih =>
    intro e s s2 he hinv h
    rw [lu_loop] at h
    simp only [Nat.add_sub_cancel] at h
    cases hl : l_pass s.2 n (n - e) e s.1 with
    | none => rw [hl] at h; exact absurd h (by simp)
    | some L1 =>
      rw [hl] at h
      simp only [] at h
      exact ih (e + 1) _ s2 (by omega) (lu_inv_step n A e s.1 s.2 L1 (by omega) hinv hl) h

/-- With a unit lower triangular `L`, row `r` of the product `L * U`. -/
theorem unit_lower_row_sum (L U : qmatrix) (r c : Nat) (hd : L r r = 1)
    (ha : ∀ m, r < m → L r m = 0) :
    ∀ N, (∑ m in Finset.range N, L r m * U m c) =
      (∑ m in Finset.range N, if m < r then L r m * U m c else 0) +
        (if r < N then U r c else 0) := by
  intro N
  induction N with
  | zero => simp
  | succ N ih =>
    rw [Finset.sum_range_succ, Finset.sum_range_succ, ih]
    by_cases h1 : N < r
    · rw [if_pos h1, if_neg (by omega), if_neg (by omega)]
      ring
    · by_cases h2 : N = r
      · subst h2
        rw [if_neg (by omega), if_neg (by omega), if_pos (by omega), hd]
        ring
      · rw [if_neg h1, if_pos (by omega), if_pos (by omega), ha N (by omega)]
        ring

theorem l_column_some (U : qmatrix) (i : Nat) (hz : U i i ≠ 0) :
    ∀ (n j : Nat) (L : qmatrix), ∃ L2, l_column U i n j L = some L2 := by
  intro n
  induction n with
  | zero => exact fun j L => ⟨L, rfl⟩
  | succ n ih =>
    intro j L
    rw [l_column, if_neg hz]
    exact ih _ _

theorem l_pass_some (U : qmatrix) (size : Nat) :
    ∀ (n i : Nat) (L : qmatrix), i + n = size → (∀ c, i ≤ c → c < size → U c c ≠ 0) →
      ∃ L2, l_pass U size n i L = some L2 := by
  intro n
  induction n with
  | zero => exact fun i L _ _ => ⟨L, rfl⟩
  | succ n ih =>
    intro i L hi hne
    obtain ⟨L1, h1⟩ := l_column_some U i (hne i (le_refl _) (by omega)) (size - i) i L
    rw [l_pass, h1]
    exact ih (i + 1) L1 (by omega) (fun c h2 h3 => hne c (by omega) h3)

theorem lu_loop_some (n : Nat) (A : qmatrix)
    (hd : ∀ e i, e + 1 < n → e ≤ i → i < n → eliminated A e i i ≠ 0) :
    ∀ (cnt e : Nat) (s : qmatrix × qmatrix), e + 1 + cnt = n →
      (∀ r c, r < n → c < n → s.2 r c = eliminated A e r c) →
      ∃ s2, lu_loop n cnt (e + 1) s = some s2 := by
  intro cnt
  induction cnt with
  | zero => exact fun e s _ _ => ⟨s, rfl⟩
  | succ cnt ih =>
    intro e s he hU
    have hne : ∀ c, e ≤ c → c < n → s.2 c c ≠ 0 := by
      intro c h1 h2
      rw [hU c c h2 h2]
      exact hd e c (by omega) h1 h2
    obtain ⟨L1, hl⟩ := l_pass_some s.2 n (n - e) e s.1 (by omega) hne
    obtain ⟨_, hL1⟩ := l_pass_spec s.2 n (n - e) e s.1 L1 (by omega) hl
    rw [lu_loop]
    simp only [Nat.add_sub_cancel]
    rw [hl]
    apply ih (e + 1) _ (by omega)
    intro r c hr hc
    show u_pass L1 (e + 1) n (n - (e + 1)) (e + 1) s.2 r c = eliminated A (e + 1) r c
    rw [u_pass_round L1 s.2 e n (by omega) r c, eliminated]
    beta_reduce
    by_cases hrc : e < r ∧ e ≤ c
    · rw [if_pos ⟨hrc.1, hr, hrc.2, hc⟩, if_pos hrc, hL1 r e,
        if_pos ⟨le_refl _, by omega, hr⟩, hU r c hr hc, hU r e hr (by omega),
        hU e e (by omega) (by omega), hU e c (by omega) hc]
    · rw [if_neg (by omega), if_neg hrc, hU r c hr hc]

theorem lu_inv_initial (n : Nat) (A L0 : qmatrix) (h : l_pass A n n 0 zero_matrix = some L0) :
    lu_inv n A 0 L0 A := by
  obtain ⟨hne, hL0⟩ := l_pass_spec A n n 0 zero_matrix L0 (by omega) h
  refine ⟨?_, ?_, ?_, ?_⟩
  · intro r c _ _
    rw [Finset.sum_range_zero, zero_add]
  · intro r c _ hc
    exact absurd hc (by omega)
  · intro c hc
    rw [hL0, if_pos ⟨Nat.zero_le _, le_refl _, hc⟩]
    exact div_self (hne c (Nat.zero_le _) hc)
  · intro r c hrc
    rw [hL0, if_neg (by omega)]
    rfl

theorem lu_inv_final (n : Nat) (A L U : qmatrix) (hinv : lu_inv n A (n - 1) L U) :
    (∀ r, r < n → L r r = 1) ∧ (∀ r c, r < c → L r c = 0) ∧
    (∀ r c, r < n → c < r → U r c = 0) ∧
    ∀ r c, r < n → c < n → (∑ m in Finset.range n, L r m * U m c) = A r c := by
  refine ⟨hinv.diag, hinv.above, ?_, ?_⟩
  · intro r c hr hcr
    exact hinv.below r c hr (by omega) hcr
  · intro r c hr hc
    rw [unit_lower_row_sum L U r c (hinv.diag r hr) (fun m hm => hinv.above r m hm) n,
      if_pos hr, hinv.sum r c hr hc]
    have hn : n = (n - 1) + 1 := by omega
    nth_rewrite 1 [hn]
    rw [Finset.sum_range_succ, if_neg (by omega), add_zero]

/-- X2: for every `n` x `n` matrix `A` over the rationals on which every divisor of `LU` is
nonzero - the diagonal of `A`, and at each elimination stage `e < n - 1` the diagonal entries
from `e` on of the partly eliminated matrix - `LU(A)` returns a pair `(L, U)` with `L` lower
triangular with unit diagonal, `U` upper triangular and `L * U = A`. -/
theorem LU_decomposition (n : Nat) (A : qmatrix) (h0 : ∀ i, i < n → A i i ≠ 0)
    (hd : ∀ e i, e + 1 < n → e ≤ i → i < n → eliminated A e i i ≠ 0) :
    ∃ L U, LU n n A = lu_result.ok L U ∧
      (∀ r, r < n → L r r = 1) ∧ (∀ r c, r < c → L r c = 0) ∧
      (∀ r c, r < n → c < r → U r c = 0) ∧
      ∀ r c, r < n → c < n → (∑ m in Finset.range n, L r m * U m c) = A r c := by
  obtain ⟨L0, h1⟩ := l_pass_some A n n 0 zero_matrix (by omega) (fun c _ hc => h0 c hc)
  have hinv0 := lu_inv_initial n A L0 h1
  by_cases hn : n = 0
  · subst hn
    refine ⟨L0, A, ?_, lu_inv_final 0 A L0 A hinv0⟩
    rw [LU, if_neg (by simp), h1]
    rfl
  · obtain ⟨s2, h2⟩ := lu_loop_some n A hd (n - 1) 0 (L0, A) (by omega) (fun r c _ _ => rfl)
    refine ⟨s2.1, s2.2, ?_, lu_inv_final n A s2.1 s2.2
      (lu_loop_spec n A (n - 1) 0 (L0, A) s2 (by omega) hinv0 h2)⟩
    rw [LU, if_neg (by simp), h1]
    simp only []
    rw [h2]

/-- Instance of X2: the matrix with rows `2 1` and `4 5` has nonzero divisors, and `LU`
decomposes it. -/
theorem LU_decomposition_witness :
    (∀ i, i < 2 → plain_matrix i i ≠ 0) ∧
    (∀ e i, e + 1 < 2 → e ≤ i → i < 2 → eliminated plain_matrix e i i ≠ 0) ∧
    ∃ L U, LU 2 2 plain_matrix = lu_result.ok L U ∧
      (∀ r, r < 2 → L r r = 1) ∧ (∀ r c, r < c → L r c = 0) ∧
      (∀ r c, r < 2 → c < r → U r c = 0) ∧
      ∀ r c, r < 2 → c < 2 → (∑ m in Finset.range 2, L r m * U m c) = plain_matrix r c :=
  have h0 : ∀ i, i < 2 → plain_matrix i i ≠ 0 := by
    intro i hi
    interval_cases i <;> norm_num [plain_matrix]
  have hd : ∀ e i, e + 1 < 2 → e ≤ i → i < 2 → eliminated plain_matrix e i i ≠ 0 := by
    intro e i he _ hi
    have : e = 0 := by omega
    subst this
    exact h0 i hi
  ⟨h0, hd, LU_decomposition 2 plain_matrix h0 hd⟩

/-- C14, failing input: the matrix with rows `1 1` and `1 0` has the leading principal minors
`1` and `-1`, and it is the product of the unit lower triangular `hollow_lower` and the upper
triangular `hollow_upper`; `LU` does not return a pair: line 143 divides `U[1][1] = 0`, which
elimination has not reached yet, by itself. -/
theorem LU_nonzero_minors_zero_divide :
    leading_minor hollow_matrix 1 = 1 ∧ leading_minor hollow_matrix 2 = -1 ∧
    LU 2 2 hollow_matrix = lu_result.zero_divide ∧
    (∀ r, r < 2 → hollow_lower r r = 1) ∧ (∀ r c, r < c → hollow_lower r c = 0) ∧
    (∀ r c, r < 2 → c < r → hollow_upper r c = 0) ∧
    ∀ r c, r < 2 → c < 2 →
      (∑ m in Finset.range 2, hollow_lower r m * hollow_upper m c) = hollow_matrix r c := by
  refine ⟨?_, ?_, rfl, ?_, ?_, ?_, ?_⟩
  · simp [leading_minor, hollow_matrix]
  · simp [leading_minor, hollow_matrix, Matrix.det_fin_two]
  · intro r _
    simp [hollow_lower]
  · intro r c hrc
    unfold hollow_lower
    rw [if_neg (by omega)]
  · intro r c hr hcr
    have h1 : r = 1 := by omega
    have h0 : c = 0 := by omega
    subst h1
    subst h0
    simp [hollow_upper]
  · intro r c hr hc
    interval_cases r <;> interval_cases c <;>
      norm_num [Finset.sum_range_succ, hollow_lower, hollow_upper, hollow_matrix]

/-! ## The guard as written -/

theorem wave_guard_eq_bounds_guard (map : matrix_view T) (blank : T) (iy ix : Int) :
    wave_guard map blank iy ix =
      (bounds_guard map iy ix && decide (map.cell iy.toNat ix.toNat = blank)) := rfl

theorem expand_row_major_past_congr (size csize : Nat) (data : List Nat) (past : Nat)
    (hp : past ≠ 0) (fuel x_from y_from x_to y_to : Nat) :
    expand fuel (matrix_view.row_major size csize data past) x_from y_from x_to y_to 0 =
      expand fuel (matrix_view.row_major size csize data 1) x_from y_from x_to y_to 0 := by
  unfold expand
  apply @expansion_congr _ _ (matrix_view.row_major size csize data past)
    (matrix_view.row_major size csize data 1) 0 rfl rfl
  intro y x
  simp only [matrix_view.row_major]
  by_cases h : y * csize + x < data.length
  · rw [List.getD_eq_getElem _ _ h, List.getD_eq_getElem _ _ h]
  · rw [List.getD_eq_default _ _ (by omega), List.getD_eq_default _ _ (by omega)]
    simp [hp]

/-- C15, failing input: the bounds tests of the guard pass exactly when both indices are
non-negative and at least one of them is below its bound; in `detour_grid` the probe
`(iy, ix) = (0, 2)`, east of the origin (row 0, col 1), passes them with `ix` equal to the
number of columns, its cell is looked up and found blank, and the row `(0, 2, 1)` is in the
visit record. -/
theorem bounds_guard_passes_outside_grid :
    (∀ (map : matrix_view Nat) (blank : Nat) (iy ix : Int),
      (bounds_guard map iy ix = true ↔
        0 ≤ iy ∧ 0 ≤ ix ∧ (iy < (map.size : Int) ∨ ix < (map.csize : Int))) ∧
      wave_guard map blank iy ix =
        (bounds_guard map iy ix && decide (map.cell iy.toNat ix.toNat = blank))) ∧
    (∀ past, (detour_grid past).csize = 2 ∧ bounds_guard (detour_grid past) 0 2 = true ∧
      wave_guard (detour_grid past) 0 0 2 = true ∧
      ∃ s, expand 30 (detour_grid past) 1 0 1 2 0 = some s ∧ (0, 2, 1) ∈ s.way) := by
  constructor
  · intro map blank iy ix
    refine ⟨?_, rfl⟩
    unfold bounds_guard size_gt
    simp only [Bool.and_eq_true, Bool.or_eq_true, decide_eq_true_eq]
    constructor
    · rintro ⟨⟨h1, h2⟩, h3⟩
      refine ⟨h2, h3, ?_⟩
      rcases h1 with h | h
      · exact Or.inl h.2
      · exact Or.inr h.2
    · rintro ⟨h1, h2, h3⟩
      refine ⟨⟨?_, h1⟩, h2⟩
      rcases h3 with h | h
      · exact Or.inl ⟨h1, h⟩
      · exact Or.inr ⟨h2, h⟩
  · intro past
    refine ⟨rfl, rfl, rfl, ?_⟩
    have h1 : expand 30 (detour_grid 1) 1 0 1 2 0 = some
        { way := [(0, 1, 0), (0, 2, 1), (1, 2, 2), (1, 3, 3), (2, 2, 3), (1, 4, 4), (2, 1, 4)],
          stop := true, y_end := 6 } := by decide
    by_cases hp : past = 0
    · subst hp
      exact ⟨_, (by decide : expand 30 (detour_grid 0) 1 0 1 2 0 = some
        { way := [(0, 1, 0), (0, 2, 1), (1, 2, 2), (1, 3, 3), (2, 2, 3), (1, 4, 4), (2, 1, 4)],
          stop := true, y_end := 6 }), by decide⟩
    · refine ⟨{ way := [(0, 1, 0), (0, 2, 1), (1, 2, 2), (1, 3, 3), (2, 2, 3), (1, 4, 4),
        (2, 1, 4)], stop := true, y_end := 6 }, ?_, by decide⟩
      unfold detour_grid
      rw [expand_row_major_past_congr _ _ _ past hp]
      exact h1

/-! ## The walk back never fails -/

theorem built_distinct {map : matrix_view T} {blank : T} {seed : row_t} {way : matrix_3xn_t}
    (h : built map blank seed way) : distinct_cells way := by
  induction h with
  | seed => exact List.pairwise_singleton _ _
  | @snoc w p e hb hp hd hpr hg hfr ih =>
    unfold distinct_cells
    rw [List.pairwise_append]
    refine ⟨ih, List.pairwise_singleton _ _, ?_⟩
    intro a ha b hb'
    simp only [List.mem_singleton] at hb'
    subst hb'
    exact hfr a ha

/-- Rows with distinct cells and coordinates below `N` are at most `N * N`. -/
theorem distinct_cells_length (l : matrix_3xn_t) (N : Nat) (hd : distinct_cells l)
    (hs : ∀ v ∈ l, v.1 < N ∧ v.2.1 < N) : l.length ≤ N * N := by
  have hnd : (l.map (fun v => (v.1, v.2.1))).Nodup := by
    unfold List.Nodup
    rw [List.pairwise_map]
    exact hd.imp (fun h heq => h (by simpa using heq))
  have hsub : (l.map (fun v => (v.1, v.2.1))).toFinset ⊆
      Finset.range N ×ˢ Finset.range N := by
    intro c hc
    simp only [List.mem_toFinset, List.mem_map] at hc
    obtain ⟨v, hv, rfl⟩ := hc
    simp only [Finset.mem_product, Finset.mem_range]
    exact hs v hv
  have := Finset.card_le_card hsub
  rw [List.toFinset_card_of_nodup hnd, Finset.card_product, Finset.card_range,
    List.length_map] at this
  exact this

/-- A visit record holds the seed and at most one row for each pair of coordinates below
`2^31`. -/
theorem built_length_le {map : matrix_view T} {blank : T} {seed : row_t} {way : matrix_3xn_t}
    (h : built map blank seed way) : way.length ≤ 2147483648 * 2147483648 + 1 := by
  obtain ⟨t, ht⟩ := built_head h
  have hd : distinct_cells t := by
    have := built_distinct h
    rw [ht] at this
    exact (List.pairwise_cons.1 this).2
  have hs : ∀ v ∈ t, v.1 < 2147483648 ∧ v.2.1 < 2147483648 := by
    intro v hv
    obtain ⟨n, hn⟩ := List.mem_iff_getElem?.1 hv
    exact built_small h (n + 1) v (by omega) (by rw [ht]; simpa using hn)
  have := distinct_cells_length t 2147483648 hd hs
  rw [ht, List.length_cons]
  omega

/-- A call of `wave_propagation` without a hit clears `stop` only when it appends a row. -/
theorem round_body_stop (map : matrix_view T) (blank : T) (x_to y_to d i : Nat)
    (s : wave_state) (hne : s.way ≠ [])
    (h0 : (round_body map blank x_to y_to d i s).y_end = 0) :
    ((round_body map blank x_to y_to d i s).stop = false →
      s.stop = false ∨ s.way.length < (round_body map blank x_to y_to d i s).way.length) ∧
    s.way.length ≤ (round_body map blank x_to y_to d i s).way.length := by
  unfold round_body at h0 ⊢
  by_cases hd : (s.way.getD i (0, 0, 0)).2.2 = d
  · simp only [hd, if_true] at h0 ⊢
    unfold wave_propagation at h0 ⊢
    obtain ⟨added, hp⟩ := wave_loop_post map blank (0, 0, 0) x_to y_to
      (s.way.getD i (0, 0, 0)).1 (s.way.getD i (0, 0, 0)).2.1 d 4 0 (by omega) s.way s.stop
    obtain ⟨_, m2, _⟩ := hp.miss h0 hne
    rw [hp.way_eq, List.length_append]
    refine ⟨fun hst => ?_, by omega⟩
    rcases m2 with ⟨_, h2⟩ | ⟨h1, _⟩
    · left
      rw [← h2]
      exact hst
    · right
      have := List.length_pos.2 h1
      omega
  · simp only [hd, if_false]
    exact ⟨fun hst => Or.inl hst, le_refl _⟩

/-- An inner loop that ends without a hit and with `stop` cleared has appended a row. -/
theorem round_loop_stop (map : matrix_view T) (blank : T) (x_to y_to d : Nat) :
    ∀ (fuel i : Nat) (s s' : wave_state),
      round_loop map blank x_to y_to d fuel i s = some s' → s'.y_end = 0 → s.way ≠ [] →
      (s'.stop = false → s.stop = false ∨ s.way.length < s'.way.length) ∧
        s.way.length ≤ s'.way.length := by
  intro fuel
  induction fuel with
  | zero => intro i s s' h; simp [round_loop] at h
  | succ fuel ih =>
    intro i s s' h h0 hne
    rw [round_loop] at h
    by_cases hi : i < s.way.length
    · rw [if_pos hi] at h
      by_cases hy : (round_body map blank x_to y_to d i s).y_end ≠ 0
      · rw [if_pos hy] at h
        injection h with h
        rw [← h] at h0
        exact absurd h0 hy
      · rw [if_neg hy] at h
        have hy0 : (round_body map blank x_to y_to d i s).y_end = 0 := by
          by_contra hc
          exact hy hc
        obtain ⟨b1, b2⟩ := round_body_stop map blank x_to y_to d i s hne hy0
        have hne1 : (round_body map blank x_to y_to d i s).way ≠ [] := by
          intro hc
          rw [hc] at b2
          have := List.length_pos.2 hne
          simp only [List.length_nil] at b2
          omega
        obtain ⟨c1, c2⟩ := ih (i + 1) _ s' h h0 hne1
        refine ⟨fun hst => ?_, by omega⟩
        rcases c1 hst with h1 | h1
        · rcases b1 h1 with h2 | h2
          · exact Or.inl h2
          · right
            omega
        · right
          omega
    · rw [if_neg hi] at h
      injection h with h
      subst h
      exact ⟨fun hst => Or.inl hst, le_refl _⟩

/-- One round of the outer loop from a state without a hit: the inner loop ends, and then the
loop stops, or the destination has been hit, or the record has grown. -/
theorem round_step {map : matrix_view T} {blank : T} {seed : row_t} {x_to y_to d : Nat}
    {s : wave_state} (hinv : run_inv map blank seed x_to y_to d s) :
    ∃ inner s1, round_loop map blank x_to y_to d (inner + 1) 0 { s with stop := true } =
        some s1 ∧
      (s1.stop = true ∨ hit_state map blank seed x_to y_to d s1 ∨
        (run_inv map blank seed x_to y_to (d + 1) s1 ∧ s.way.length < s1.way.length)) := by
  obtain ⟨s1, hr⟩ := round_loop_terminates map blank x_to y_to d
    (4 * (s.way.drop 0).countP (fun e => decide (e.2.2 = d)) + (s.way.length - 0)) 0
    { s with stop := true } (le_refl _)
  generalize 4 * (s.way.drop 0).countP (fun e => decide (e.2.2 = d)) + (s.way.length - 0)
    = N at hr
  refine ⟨N, s1, hr, ?_⟩
  have hri : round_inv map blank seed x_to y_to d 0 s.way { s with stop := true } := by
    refine ⟨hinv.y_end0, hinv.bt, ?_, hinv.cl, ?_, hinv.nd, fun _ => rfl, ⟨[], by simp⟩⟩
    · intro v hv
      exact Nat.le_succ_of_le (hinv.mx v hv)
    · intro n e hn
      omega
  by_cases hst : s1.stop = true
  · exact Or.inl hst
  · right
    have hst' : s1.stop = false := by simpa using hst
    rcases round_loop_post map blank seed x_to y_to d s.way (N + 1) 0 _ s1 hri hr with hA | hB
    · right
      refine ⟨⟨hA.y_end0, hA.bt, hA.mx, closed_succ_of_round hA, hA.nd⟩, ?_⟩
      obtain ⟨t, ht⟩ := built_head hinv.bt
      have hne : ({ s with stop := true } : wave_state).way ≠ [] := by
        show s.way ≠ []
        rw [ht]
        simp
      rcases (round_loop_stop map blank x_to y_to d (N + 1) 0 _ s1 hr hA.y_end0 hne).1 hst'
        with h1 | h1
      · simp at h1
      · exact h1
    · exact Or.inl hB

/-- The outer loop ends: every round that goes on has appended a row, and a visit record has
at most `2^62 + 1` rows. -/
theorem expansion_terminates {map : matrix_view T} {blank : T} (seed : row_t)
    (hseed : seed.2.2 = 0) {x_to y_to : Nat} :
    ∀ (n d : Nat) (s : wave_state), run_inv map blank seed x_to y_to d s →
      2147483648 * 2147483648 + 1 ≤ s.way.length + n →
      ∃ inner fuel s', expansion map blank x_to y_to inner fuel d s = some s' := by
  intro n
  induction n with
  | zero =>
    intro d s hinv hlen
    obtain ⟨N, s1, hr, hcase⟩ := round_step hinv
    rcases hcase with hst | hB | ⟨hA, hgrow⟩
    · refine ⟨N + 1, 1, s1, ?_⟩
      rw [expansion, hr]
      simp only [hst, Bool.not_true, Bool.false_eq_true, if_false]
    · by_cases hst : s1.stop = true
      · refine ⟨N + 1, 1, s1, ?_⟩
        rw [expansion, hr]
        simp only [hst, Bool.not_true, Bool.false_eq_true, if_false]
      · have hst' : s1.stop = false := by simpa using hst
        refine ⟨N + 1, 2, { s1 with stop := true }, ?_⟩
        rw [expansion, hr]
        simp only [hst', Bool.not_false, if_true]
        exact expansion_after_hit_total map blank seed hseed x_to y_to N 0 (d + 1) d s1 hB
          (by omega)
    · have := built_length_le hA.bt
      omega
  | succ n ih =>
    intro d s hinv hlen
    obtain ⟨N, s1, hr, hcase⟩ := round_step hinv
    rcases hcase with hst | hB | ⟨hA, hgrow⟩
    · refine ⟨N + 1, 1, s1, ?_⟩
      rw [expansion, hr]
      simp only [hst, Bool.not_true, Bool.false_eq_true, if_false]
    · by_cases hst : s1.stop = true
      · refine ⟨N + 1, 1, s1, ?_⟩
        rw [expansion, hr]
        simp only [hst, Bool.not_true, Bool.false_eq_true, if_false]
      · have hst' : s1.stop = false := by simpa using hst
        refine ⟨N + 1, 2, { s1 with stop := true }, ?_⟩
        rw [expansion, hr]
        simp only [hst', Bool.not_false, if_true]
        exact expansion_after_hit_total map blank seed hseed x_to y_to N 0 (d + 1) d s1 hB
          (by omega)
    · by_cases hst : s1.stop = true
      · refine ⟨N + 1, 1, s1, ?_⟩
        rw [expansion, hr]
        simp only [hst, Bool.not_true, Bool.false_eq_true, if_false]
      · have hst' : s1.stop = false := by simpa using hst
        obtain ⟨inner2, fuel2, s', h2⟩ := ih (d + 1) s1 hA (by omega)
        refine ⟨max (N + 1) inner2, fuel2 + 1, s', ?_⟩
        rw [expansion, round_loop_mono map blank x_to y_to d (N + 1) _ 0 _ s1
          (le_max_left _ _) hr]
        simp only [hst', Bool.not_false, if_true]
        exact expansion_mono map blank x_to y_to inner2 _ (le_max_right _ _) fuel2 fuel2
          (d + 1) s1 s' (le_refl _) h2

/-- The expansion of `lee_neumann` ends on every input: from some amount of fuel on it yields
the same state. -/
theorem expand_terminates (map : matrix_view T) (x_from y_from x_to y_to : Nat) (blank : T) :
    ∃ fuel s, ∀ fuel', fuel ≤ fuel' →
      expand fuel' map x_from y_from x_to y_to blank = some s := by
  have h0 : run_inv map blank (y_from, x_from, 0) x_to y_to 0
      { way := [(y_from, x_from, 0)], stop := false, y_end := 0 } := by
    refine ⟨rfl, built.seed, ?_, ?_, ?_⟩
    · intro v hv
      simp only [List.mem_singleton] at hv
      rw [hv]
    · intro e _ hlt
      omega
    · intro e he
      simp at he
  obtain ⟨inner, fuel, s, hs⟩ := expansion_terminates (y_from, x_from, 0) rfl
    (2147483648 * 2147483648 + 1) 0 _ h0 (by omega)
  refine ⟨max inner fuel, s, fun fuel' hle => ?_⟩
  unfold expand
  exact expansion_mono map blank x_to y_to inner _ (le_trans (le_max_left _ _) hle) fuel _ 0 _ s
    (le_trans (le_max_right _ _) hle) hs

/-- C17: for every grid and every in-bounds blank cell, `lee_neumann` with that cell as origin
and as destination returns the empty optional: the expansion ends, for every fuel from some
amount on, and it ends without a hit, as the destination is the seed of the visit record and
is never appended again. -/
theorem lee_neumann_same_cell_nullopt (map : matrix_view T) (blank : T) (x y : Nat)
    (hy : y < map.size) (hx : x < map.csize) (hb : map.cell y x = blank) :
    ∃ fuel, ∀ fuel', fuel ≤ fuel' →
      lee_neumann fuel' map x y x y blank = some outcome.nullopt := by
  obtain ⟨fuel, s, hs⟩ := expand_terminates map x y x y blank
  refine ⟨fuel, fun fuel' hle => ?_⟩
  have he := hs fuel' hle
  unfold lee_neumann
  rw [if_neg (by omega), if_neg (by rw [hb]; simp)]
  simp only [he]
  rcases expand_post fuel' map x y x y blank s he with h1 | ⟨D, h1⟩
  · rw [if_pos h1.y_end0]
  · exact absurd ⟨rfl, rfl⟩ (hit_state_ne h1)

/-- Instance of C17 on `open_grid`, at the cell (row 1, col 2). -/
theorem lee_neumann_same_cell_nullopt_witness :
    ∃ fuel, ∀ fuel', fuel ≤ fuel' →
      lee_neumann fuel' open_grid 2 1 2 1 0 = some outcome.nullopt :=
  lee_neumann_same_cell_nullopt open_grid 0 2 1 (by decide) (by decide) (by decide)

/-! ## More rounds than cells -/

/-- C18, failing input: on `column_grid`, from (row 4, col 0) with the unreachable destination
(row 7, col 0), the expansion ends with the visit record `column_way`: it has 11 rows though
the grid has 8 cells, 9 of them outside the one column of the grid, and its last row has
distance 9, so that rounds 0 to 8 each appended a row. -/
theorem column_grid_rounds_exceed_cells :
    (∀ past, expand 30 (column_grid past) 0 4 0 7 0 =
      some { way := column_way, stop := true, y_end := 0 }) ∧
    (column_grid 0).size * (column_grid 0).csize = 8 ∧ column_way.length = 11 ∧
    (column_way.filter (fun v => decide ((column_grid 0).csize ≤ v.2.1))).length = 9 ∧
    column_way.getLast? = some (0, 5, 9) := by
  refine ⟨?_, rfl, rfl, by decide, rfl⟩
  intro past
  by_cases hp : past = 0
  · subst hp
    decide
  · unfold column_grid
    rw [expand_row_major_past_congr _ _ _ past hp]
    decide

/-! ## One probe -/

/-- C20, failing input: in `shortcut_grid` the destination (row 2, col 2) is reachable from
the origin (row 0, col 2) through seven in-bounds blank cells; `lee_neumann` returns a path of
five rows, three of which have `x = 3`, the number of columns, whatever value lies behind the
buffer. -/
theorem shortcut_grid_path_leaves_grid :
    (∀ past, lee_neumann 30 (shortcut_grid past) 2 0 2 2 0 =
      some (outcome.path [(2, 2, 1), (3, 2, 1), (3, 1, 1), (3, 0, 1), (2, 0, 1)])) ∧
    (shortcut_grid 0).csize = 3 ∧
    ∀ past, (∀ c ∈ [(0, 2), (0, 1), (0, 0), (1, 0), (2, 0), (2, 1), (2, 2)],
        c.1 < (shortcut_grid past).size ∧ c.2 < (shortcut_grid past).csize ∧
        (shortcut_grid past).cell c.1 c.2 = 0) ∧
      List.Chain' adjacent4 [(0, 2), (0, 1), (0, 0), (1, 0), (2, 0), (2, 1), (2, 2)] := by
  refine ⟨?_, rfl, ?_⟩
  · intro past
    by_cases hp : past = 0
    · subst hp
      decide
    · unfold shortcut_grid
      rw [row_major_past_congr _ _ _ past hp]
      decide
  · intro past
    refine ⟨?_, by simp [adjacent4]⟩
    intro c hc
    simp only [List.mem_cons, List.mem_singleton, List.not_mem_nil, or_false] at hc
    rcases hc with h | h | h | h | h | h | h <;> subst h <;>
      exact ⟨Nat.lt_of_sub_eq_succ rfl, Nat.lt_of_sub_eq_succ rfl, rfl⟩

end tvd
